import Mathlib

/-!
Verification of the gemini-cli-proxy protocol-translation core.

This file gives a shallow embedding, in Lean, of the pure protocol logic of
the proxy: the model-name resolver and JSON-Schema normalizer
(`src/gemini/mapper.ts`), the per-model cooldown bookkeeping
(`src/gemini/auto-model-switching.ts`, `src/utils/constant.ts`), the
signature-length validation (`src/utils/signature-cache.ts`), the normalized
chunk stream produced by `GeminiApiClient.streamContentInternal`
(`src/gemini/client.ts`), the Anthropic SSE re-emitter
(`streamAnthropicResponse` in the Anthropic router) and the request
validation prefix of the `/v1/messages` handler.

JavaScript-specific behaviour (truthiness, `Object.assign`, `Object.entries`
over arrays, string coercion via `String(v)`) is modelled explicitly on a
JSON value type.  Upstream SSE input is modelled after JSON parsing: a list
of records, each with candidate parts, an optional finishReason and optional
usage metadata.  Sources of execution nondeterminism (`crypto.randomUUID`,
`crypto.randomBytes`) are modelled as supply functions `Nat → String`.
-/

namespace GeminiProxy

/-! ## Model resolver (`mapModelToGemini`, src/gemini/mapper.ts lines 4-51) -/

/-- The values of the `Gemini.Model` enum (src/types/gemini.ts), in
declaration order; `Object.values(Gemini.Model)` in the source. -/
def geminiModelValues : List String :=
  ["gemini-2.5-flash", "gemini-2.5-pro", "gemini-2.5-flash-lite",
   "gemini-2.5-flash-lite-preview", "gemini-3-pro-high", "gemini-3-pro",
   "gemini-3-pro-preview", "gemini-3-flash", "gemini-3-flash-preview",
   "gemini-3"]

/-- The static `modelAliases` table of `mapModelToGemini`. -/
def modelAliases : List (String × String) :=
  [("gemini-3-pro-high", "gemini-3-pro-preview"),
   ("gemini-3-pro", "gemini-3-pro-preview"),
   ("gemini-3-pro-preview", "gemini-3-pro-preview"),
   ("gemini-3-flash", "gemini-3-flash-preview"),
   ("gemini-3-flash-preview", "gemini-3-flash-preview"),
   ("gemini-3", "gemini-3-flash-preview"),
   ("gemini-2.5-flash-lite", "gemini-2.5-flash-lite-preview"),
   ("gemini-2.5-flash-lite-preview", "gemini-2.5-flash-lite-preview"),
   ("gemini-2.5-flash", "gemini-2.5-flash"),
   ("gemini-2.5-pro", "gemini-2.5-pro")]

/-- Embedding of `model.replace(/\[\d+m\]$/, "")`: drop a trailing `[<digits>m]` suffix.
Implemented on the reversed character list: the suffix is `]`, `m`, one or
more digits, `[`. -/
def stripRevSuffix : List Char → Option (List Char)
  | ']' :: 'm' :: rest =>
    let ds := rest.takeWhile Char.isDigit
    let rest' := rest.dropWhile Char.isDigit
    if ds.isEmpty then none
    else
      match rest' with
      | '[' :: tail => some tail
      | _ => none
  | _ => none

def stripBudgetSuffix (s : String) : String :=
  match stripRevSuffix s.data.reverse with
  | some tail => String.mk tail.reverse
  | none => s

def lookupAlias (m : String) : Option String :=
  (modelAliases.find? (fun p => p.1 == m)).map Prod.snd

/-- Embedding of `mapModelToGemini` (src/gemini/mapper.ts lines 4-51).
`none` models an absent (`undefined`) model argument.  The JS truthiness
test `if (modelAliases[cleanModel])` is equivalent to a lookup test because
every alias value is a non-empty string. -/
def mapModelToGemini : Option String → String
  | none => "gemini-2.5-pro"
  | some model =>
    let cleanModel := stripBudgetSuffix model
    match lookupAlias cleanModel with
    | some target => target
    | none =>
      if cleanModel ∈ geminiModelValues then cleanModel
      else if cleanModel.startsWith "gemini-" then cleanModel
      else "gemini-2.5-pro"

/-- Modelled from the spec (§4.2): the six-step reference resolution
procedure, written in the order the spec states it: (1) null/absent gives
the default; (2) strip a trailing `[<digits>m]` suffix; (3) consult the
static alias table; (4) known canonical ids pass through; (5) a remaining
`gemini-` name passes through unchanged; (6) everything else yields the
default `gemini-2.5-pro`. -/
def specModelResolve : Option String → String
  | none => "gemini-2.5-pro"
  | some name =>
    let stripped := stripBudgetSuffix name
    match lookupAlias stripped with
    | some target => target
    | none =>
      if stripped ∈ geminiModelValues then stripped
      else if stripped.startsWith "gemini-" then stripped
      else "gemini-2.5-pro"

/-! ## Cooldown state (`AutoModelSwitchingHelper`, src/gemini/auto-model-switching.ts) -/

/-- Embedding of `DEFAULT_COOLDOWN_MINUTES` (src/utils/constant.ts line 33). -/
def DEFAULT_COOLDOWN_MINUTES : Nat := 10

/-- Embedding of `RATE_LIMIT_STATUS_CODES` (src/utils/constant.ts line 22). -/
def RATE_LIMIT_STATUS_CODES : List Nat := [429, 503]

/-- Embedding of `AUTO_SWITCH_MODEL_MAP` (src/utils/constant.ts lines 28-30): empty in
the default configuration — no fallbacks. -/
def AUTO_SWITCH_MODEL_MAP : List (String × String) := []

structure CooldownEntry where
  rateLimitedAt : Int
  statusCodes : List Nat
deriving Repr, DecidableEq

/-- Embedding of `ModelCooldownState`: model id to cooldown entry, insertion-ordered. -/
abbrev CooldownState := List (String × CooldownEntry)

/-- Embedding of `addRateLimitedModel` (auto-model-switching.ts lines 118-133): fresh
entry on first observation, otherwise overwrite `rateLimitedAt` with `now`
and record the status code if new. -/
def addRateLimitedModel (st : CooldownState) (model : String) (statusCode : Nat)
    (now : Int) : CooldownState :=
  match st.find? (fun p => p.1 == model) with
  | none => st ++ [(model, ⟨now, [statusCode]⟩)]
  | some _ =>
    st.map (fun p =>
      if p.1 == model then
        (p.1, ⟨now,
          if statusCode ∈ p.2.statusCodes then p.2.statusCodes
          else p.2.statusCodes ++ [statusCode]⟩)
      else p)

/-- The cooldown duration `DEFAULT_COOLDOWN_MINUTES * 60 * 1000` in
milliseconds (the conversion at auto-model-switching.ts line 145). -/
def cooldownDurationMs : Int := DEFAULT_COOLDOWN_MINUTES * 60 * 1000

/-- Embedding of `isModelInCooldown` (auto-model-switching.ts lines
140-154): in cooldown iff `now - rateLimitedAt` is below the cooldown
duration; an expired entry is deleted as a side effect (second component). -/
def isModelInCooldown (st : CooldownState) (model : String) (now : Int) :
    Bool × CooldownState :=
  match st.find? (fun p => p.1 == model) with
  | none => (false, st)
  | some (_, e) =>
    if now - e.rateLimitedAt < cooldownDurationMs then (true, st)
    else (false, st.filter (fun p => !(p.1 == model)))

/-- Embedding of `getFallbackModel` (auto-model-switching.ts lines 61-63). -/
def getFallbackModel (model : String) : Option String :=
  (AUTO_SWITCH_MODEL_MAP.find? (fun p => p.1 == model)).map Prod.snd

/-- Embedding of `isRateLimitStatus` (auto-model-switching.ts lines 79-81). -/
def isRateLimitStatus (statusCode : Nat) : Bool :=
  statusCode ∈ RATE_LIMIT_STATUS_CODES

/-- Embedding of `shouldAttemptFallback` (auto-model-switching.ts lines 88-91). -/
def shouldAttemptFallback (st : CooldownState) (model : String) (now : Int) : Bool :=
  if (isModelInCooldown st model now).1 then false
  else (getFallbackModel model).isSome

/-! ## Rate-limit error surfacing (client.ts lines 539-597, anthropic router) -/

/-- Unit parsed by the quota-reset regex
`/quota.*?reset.*?(\d+)\s*(seconds?|minutes?|hours?)/i` over the 429 error
body. -/
inductive TimeUnit where
  | seconds
  | minutes
  | hours
deriving Repr, DecidableEq

/-- Embedding of `GeminiApiError` (client.ts lines 13-22). -/
structure GeminiApiError where
  message : String
  statusCode : Nat
  responseText : Option String
deriving Repr, DecidableEq

/-- Embedding of `Math.ceil(a / b)` on naturals. -/
def ceilDiv (a b : Nat) : Nat := (a + b - 1) / b

/-- The reset estimate of the 429 handler (client.ts lines 543-587):
default one minute, replaced by a parseable `retry-after` header (seconds),
in turn replaced by a match of the quota-reset regex over the error body.
The header parse result and the regex match result are passed in already
parsed (the model does not re-implement `parseInt` and the regex engine). -/
def computeResetMs (retryAfterSecs : Option Nat) (bodyMatch : Option (Nat × TimeUnit)) : Nat :=
  let resetMs := 60000
  let resetMs := match retryAfterSecs with
    | some s => s * 1000
    | none => resetMs
  match bodyMatch with
  | some (v, .minutes) => v * 60 * 1000
  | some (v, .hours) => v * 60 * 60 * 1000
  | some (v, .seconds) => v * 1000
  | none => resetMs

/-- Embedding of `humanReadable` (client.ts lines 590-592). -/
def humanReadable (resetMs : Nat) : String :=
  if resetMs ≥ 60000 then toString (ceilDiv resetMs 60000) ++ " minute(s)"
  else toString (ceilDiv resetMs 1000) ++ " second(s)"

/-- The 429 error message (client.ts line 594); `isoNext` stands for
`new Date(Date.now() + resetMs).toISOString()`. -/
def rateLimitMessage (model : String) (resetMs : Nat) (isoNext : String) : String :=
  "RESOURCE_EXHAUSTED: Rate limited on " ++ model ++ ". Quota will reset after "
    ++ humanReadable resetMs ++ ". Next available: " ++ isoNext

/-- The `GeminiApiError` thrown by the 429 branch of
`streamContentInternal` (client.ts line 596). -/
def rateLimit429Error (model : String) (resetMs : Nat) (isoNext : String)
    (errorBody : Option String) : GeminiApiError :=
  ⟨rateLimitMessage model resetMs isoNext, 429, errorBody⟩

/-- Embedding of `streamContent` / `getCompletion` catch logic (client.ts lines 239-273):
the error is re-thrown unless auto-switching is enabled, the status is a
rate-limit status and `shouldAttemptFallback` holds.  Returns `true` when
the error propagates unchanged to the router. -/
def streamContentRethrows (disableAutoModelSwitch : Bool) (st : CooldownState)
    (now : Int) (model : String) (e : GeminiApiError) : Bool :=
  !(!disableAutoModelSwitch && isRateLimitStatus e.statusCode
      && shouldAttemptFallback st model now)

structure AnthropicErrorDetail where
  type : String
  message : String
deriving Repr, DecidableEq

/-- The Anthropic error body `{type: "error", error: {type, message}}`. -/
structure AnthropicError where
  type : String
  error : AnthropicErrorDetail
deriving Repr, DecidableEq

/-- The error mapping of the Anthropic `/v1/messages` handler when headers
have not been sent (anthropic router, streaming branch lines 128-146 and
non-streaming branch lines 185-206, identical logic): status 400 and type
`invalid_request_error` for an upstream 429, else 500 / `api_error`. -/
def anthropicCompletionErrorResponse (e : GeminiApiError) : Nat × AnthropicError :=
  let isRateLimit := e.statusCode == 429
  let statusCode := if isRateLimit then 400 else 500
  let errorType := if isRateLimit then "invalid_request_error" else "api_error"
  (statusCode, ⟨"error", ⟨errorType, e.message⟩⟩)

/-! ## Anthropic `/v1/messages` validation prefix (anthropic router lines 40-109) -/

/-- Embedding of `SUPPORTED_MODELS` (src/dashboard/store.ts lines 7-18). -/
def SUPPORTED_MODELS : List String :=
  ["gemini-2.5-flash", "gemini-2.5-pro", "gemini-2.5-flash-lite",
   "gemini-2.5-flash-lite-preview", "gemini-3-pro-high", "gemini-3-pro",
   "gemini-3-pro-preview", "gemini-3-flash", "gemini-3-flash-preview",
   "gemini-3"]

/-- Embedding of `assertModelEnabled` (src/dashboard/security.ts): rejection message, if
any.  `enabledPolicy` abstracts the dashboard's `model_policies` table; in
the default configuration every supported model is seeded enabled, i.e. the
policy is `fun _ => true`. -/
def assertModelEnabled (enabledPolicy : String → Bool) (model : String) :
    Option String :=
  if !(model ∈ SUPPORTED_MODELS) then
    some ("Model '" ++ model ++ "' is not in the supported Gemini model list.")
  else if !(enabledPolicy model) then
    some ("Access forbidden: model '" ++ model ++ "' is disabled by dashboard policy.")
  else none

structure AnthropicMessage where
  role : String
  content : String
deriving Repr, DecidableEq

/-- Outcome of the validation prefix of the `/v1/messages` handler: either
an early JSON response (before any upstream interaction), or fall-through
to project discovery and the upstream call. -/
inductive HandlerOutcome where
  | reject (status : Nat) (body : AnthropicError)
  | proceedUpstream
deriving Repr, DecidableEq

/-- JS falsiness of `body.max_tokens` (absent or zero). -/
def maxTokensFalsy : Option Nat → Bool
  | none => true
  | some n => n == 0

/-- The validation prefix of the Anthropic `/v1/messages` handler
(anthropic router lines 40-109), in source order: model gate
(`assertModelEnabled`, 403 `permission_error`), then the `messages`
check, then the `max_tokens` check (both 400 `invalid_request_error`).
Only after all three does the handler call `discoverProjectId` and the
upstream. -/
def anthropicMessagesValidate (enabledPolicy : String → Bool) (model : String)
    (messages : List AnthropicMessage) (maxTokens : Option Nat) : HandlerOutcome :=
  match assertModelEnabled enabledPolicy model with
  | some msg => .reject 403 ⟨"error", ⟨"permission_error", msg⟩⟩
  | none =>
    if messages.isEmpty then
      .reject 400 ⟨"error", ⟨"invalid_request_error",
        "messages is required and cannot be empty"⟩⟩
    else if maxTokensFalsy maxTokens then
      .reject 400 ⟨"error", ⟨"invalid_request_error", "max_tokens is required"⟩⟩
    else .proceedUpstream

/-! ## Signature validation (src/utils/signature-cache.ts) -/

/-- Embedding of `MIN_SIGNATURE_LENGTH` (signature-cache.ts line 9). -/
def MIN_SIGNATURE_LENGTH : Nat := 100

/-- Embedding of `isValidSignature` (signature-cache.ts lines 77-79); the callers pass a
string (missing signatures arrive as `""` via `|| ""`). -/
def isValidSignature (s : String) : Bool :=
  s.length ≥ MIN_SIGNATURE_LENGTH

/-! ## Normalized chunk stream (`streamContentInternal`, client.ts lines 278-645)

The upstream input is modelled after SSE framing and JSON parsing: a list of
records, each carrying the parts of `response.candidates[0].content`, the
candidate's optional `finishReason`, and optional `usageMetadata`.  The
`crypto.randomUUID()` supply is a function `Nat → String` consumed in order.
Chunk fields irrelevant to the verified properties (`id`, `object`,
`created`, `model`, `logprobs`) are omitted. -/

/-- A candidate part.  `thought`/`thoughtSignature` default to
`false`/`""` when absent (the source reads
`part.thought_signature || part.thoughtSignature || ""`).  For a
function-call part, `argsJson` is `JSON.stringify(part.functionCall.args)`.
`other` stands for inline-data / function-response parts, which the parsing
loop ignores (they carry neither a `text` nor a `functionCall` key). -/
inductive GPart where
  | text (text : String) (thought : Bool) (thoughtSignature : String)
  | functionCall (name : String) (argsJson : String) (thoughtSignature : String)
  | other
deriving Repr, DecidableEq

structure UsageMetadata where
  promptTokenCount : Option Nat := none
  candidatesTokenCount : Option Nat := none
deriving Repr, DecidableEq

structure GRecord where
  parts : List GPart := []
  finishReason : Option String := none
  usageMetadata : Option UsageMetadata := none
deriving Repr, DecidableEq

structure UsageData where
  prompt_tokens : Nat
  completion_tokens : Nat
  total_tokens : Nat
deriving Repr, DecidableEq

/-- One element of `delta.tool_calls` (`index` is always 0 and `type`
always `"function"` in the source; `thoughtSignature` models the
`_thoughtSignature` pass-through field). -/
structure ToolCallDelta where
  id : String
  name : String
  arguments : String
  thoughtSignature : String
deriving Repr, DecidableEq

/-- Embedding of `OpenAI.StreamDelta`.  `thought`, `thoughtSignature`, `thinkingStart`
and `thinkingEnd` model the `_thought`, `_thoughtSignature`,
`_thinkingStart` and `_thinkingEnd` marker fields; a `false`/`""` value
models an absent field.  `content := none` covers both an absent and an
explicit `null` content (both are falsy and are skipped identically by
every consumer). -/
structure StreamDelta where
  role : Option String := none
  content : Option String := none
  tool_calls : Option (List ToolCallDelta) := none
  thought : Bool := false
  thoughtSignature : String := ""
  thinkingStart : Bool := false
  thinkingEnd : Bool := false
deriving Repr, DecidableEq

/-- Embedding of `OpenAI.StreamChunk`, restricted to `choices[0].delta`,
`choices[0].finish_reason` and `usage`. -/
structure StreamChunk where
  delta : StreamDelta
  finish_reason : Option String := none
  usage : Option UsageData := none
deriving Repr, DecidableEq

/-- JS truthiness of an optional string field. -/
def contentTruthy : Option String → Bool
  | some s => s != ""
  | none => false

/-- Generator-local state of one `streamContentInternal` call, plus the
instance-level `firstChunk` flag (which lives on the `GeminiApiClient` and
is never reset) and a counter into the uuid supply. -/
structure GenState where
  firstChunk : Bool := true
  toolCallId : Option String := none
  usageData : Option UsageData := none
  thinkingInProgress : Bool := false
  uuidCount : Nat := 0
deriving Repr, DecidableEq

/-- The `_thinkingEnd` closing chunk (client.ts lines 416-420). -/
def thinkingEndChunk : StreamChunk :=
  { delta := { content := some "", thinkingEnd := true } }

/-- Chunk emission for one candidate part (client.ts lines 379-469). -/
def processPart (uuid : Nat → String) (p : GPart) (st : GenState) :
    List StreamChunk × GenState :=
  match p with
  | .text t thought sig =>
    if thought then
      let delta0 : StreamDelta :=
        { content := some t, thought := true, thoughtSignature := sig }
      let delta1 := if st.firstChunk then {delta0 with role := some "assistant"}
        else delta0
      let st1 := if st.firstChunk then {st with firstChunk := false} else st
      let delta2 := if !st1.thinkingInProgress then
          {delta1 with thinkingStart := true}
        else delta1
      let st2 := if !st1.thinkingInProgress then
          {st1 with thinkingInProgress := true}
        else st1
      ([{ delta := delta2 }], st2)
    else
      let closing := if st.thinkingInProgress then [thinkingEndChunk] else []
      let st1 := if st.thinkingInProgress then {st with thinkingInProgress := false}
        else st
      let delta0 : StreamDelta := { content := some t }
      let delta1 := if st1.firstChunk then {delta0 with role := some "assistant"}
        else delta0
      let st2 := if st1.firstChunk then {st1 with firstChunk := false} else st1
      (closing ++ [{ delta := delta1 }], st2)
  | .functionCall name argsJson sig =>
    let closing := if st.thinkingInProgress then [thinkingEndChunk] else []
    let st1 := if st.thinkingInProgress then {st with thinkingInProgress := false}
      else st
    let tid := "call_" ++ uuid st1.uuidCount
    let st2 := {st1 with toolCallId := some tid, uuidCount := st1.uuidCount + 1}
    let delta0 : StreamDelta := { tool_calls := some [⟨tid, name, argsJson, sig⟩] }
    -- on the first chunk the source also sets `delta.content = null`,
    -- covered by `content := none`
    let delta1 := if st2.firstChunk then {delta0 with role := some "assistant"}
      else delta0
    let st3 := if st2.firstChunk then {st2 with firstChunk := false} else st2
    (closing ++ [{ delta := delta1 }], st3)
  | .other => ([], st)

def processParts (uuid : Nat → String) :
    List GPart → GenState → List StreamChunk × GenState
  | [], st => ([], st)
  | p :: ps, st =>
    let (cs, st1) := processPart uuid p st
    let (rest, st2) := processParts uuid ps st1
    (cs ++ rest, st2)

/-- Embedding of `usageMetadata` handling (client.ts lines 473-482). -/
def applyUsage (u : Option UsageMetadata) (st : GenState) : GenState :=
  match u with
  | none => st
  | some m =>
    let p := m.promptTokenCount.getD 0
    let c := m.candidatesTokenCount.getD 0
    {st with usageData := some ⟨p, c, p + c⟩}

/-- The terminal chunk (client.ts lines 484-493 and 511-519):
`finish_reason` is `tool_calls` iff some function-call part was seen, and
the latest usage data is attached. -/
def terminalChunk (st : GenState) : StreamChunk :=
  { delta := {},
    finish_reason := some (if st.toolCallId.isSome then "tool_calls" else "stop"),
    usage := st.usageData }

/-- The record loop of `streamContentInternal` (client.ts lines 364-519).
A record with а `finishReason` emits the terminal chunk and returns at once
(remaining records are never reached); at end of stream an open thinking
block is first closed. -/
def processRecords (uuid : Nat → String) :
    List GRecord → GenState → List StreamChunk × GenState
  | [], st =>
    let closing := if st.thinkingInProgress then [thinkingEndChunk] else []
    let st1 := if st.thinkingInProgress then {st with thinkingInProgress := false}
      else st
    (closing ++ [terminalChunk st1], st1)
  | r :: rs, st =>
    let (cs, st1) := processParts uuid r.parts st
    let st2 := applyUsage r.usageMetadata st1
    match r.finishReason with
    | some _ => (cs ++ [terminalChunk st2], st2)
    | none =>
      let (rest, st3) := processRecords uuid rs st2
      (cs ++ rest, st3)

/-- One streamed response through a `GeminiApiClient` whose instance-level
`firstChunk` flag currently holds `firstChunk`; returns the emitted chunk
list and the final state (whose `firstChunk` field is the instance state
left behind for a subsequent call on the same client). -/
def streamContentInternal (uuid : Nat → String) (recs : List GRecord)
    (firstChunk : Bool) : List StreamChunk × GenState :=
  processRecords uuid recs { firstChunk := firstChunk }

/-! ## Non-streaming accumulator (`getCompletion`, client.ts lines 162-234) -/

/-- The content accumulation of `getCompletion` (client.ts lines 185-188):
`if (chunk.choices[0].delta.content) content += ...` — every truthy
content delta is appended, with no filtering on the `_thought` marker. -/
def getCompletionContent (chunks : List StreamChunk) : String :=
  chunks.foldl
    (fun acc c => if contentTruthy c.delta.content then acc ++ c.delta.content.getD "" else acc)
    ""

/-- Plain concatenation of all `delta.content` fields of a chunk list
(absent content contributing nothing), thinking chunks included. -/
def concatContents : List StreamChunk → String
  | [] => ""
  | c :: cs => c.delta.content.getD "" ++ concatContents cs

/-! ## Anthropic SSE re-emitter (`streamAnthropicResponse`, anthropic router lines 240-547) -/

/-- Embedding of `String.prototype.trim`, modelled structurally (kernel-reducible):
drop leading and trailing whitespace characters. -/
def jsTrim (s : String) : String :=
  String.mk (((s.data.dropWhile Char.isWhitespace).reverse.dropWhile
    Char.isWhitespace).reverse)

inductive BlockType where
  | thinking
  | text
  | tool_use
deriving Repr, DecidableEq

/-- The wire events written by `writeEvent`, restricted to the payload
fields the verified properties speak about.  `message_start` carries the
message id, the original model and the starting `input_tokens`;
`content_block_start` events are split by block type, the `tool_use` one
carrying the block id, the tool name and the optional `thoughtSignature`
attached when valid. -/
inductive AnthEvent where
  | message_start (id : String) (model : String) (input_tokens : Nat)
  | content_block_start_thinking (index : Nat)
  | content_block_start_text (index : Nat)
  | content_block_start_tool_use (index : Nat) (id : String) (name : String)
      (thoughtSignature : Option String)
  | content_block_delta_thinking (index : Nat) (thinking : String)
  | content_block_delta_signature (index : Nat) (signature : String)
  | content_block_delta_text (index : Nat) (text : String)
  | content_block_delta_input_json (index : Nat) (argsDelta : String)
  | content_block_stop (index : Nat)
  | message_delta (stop_reason : String) (output_tokens : Nat)
  | message_stop
deriving Repr, DecidableEq

/-- Emitter state of `streamAnthropicResponse` (anthropic router lines
252-261), plus a counter into the `crypto.randomBytes` hex supply used for
fallback `toolu_` ids. -/
structure AnthState where
  hasEmittedStart : Bool := false
  blockIndex : Nat := 0
  currentBlockType : Option BlockType := none
  currentThinkingSignature : String := ""
  inputTokens : Nat := 0
  outputTokens : Nat := 0
  stopReason : String := "end_turn"
  totalContent : String := ""
  hexCount : Nat := 0
deriving Repr, DecidableEq

/-- The tool-call loop (anthropic router lines 414-452). -/
def anthToolLoop (hex : Nat → String) :
    List ToolCallDelta → AnthState → List AnthEvent × AnthState
  | [], st => ([], st)
  | tc :: tcs, st =>
    let toolId := if tc.id == "" then "toolu_" ++ hex st.hexCount else tc.id
    let st := {st with hexCount := if tc.id == "" then st.hexCount + 1 else st.hexCount}
    let sigAttached :=
      if isValidSignature tc.thoughtSignature then some tc.thoughtSignature else none
    let argEvents :=
      if tc.arguments == "" then []
      else [AnthEvent.content_block_delta_input_json st.blockIndex tc.arguments]
    let events :=
      [AnthEvent.content_block_start_tool_use st.blockIndex toolId tc.name sigAttached]
        ++ argEvents
        ++ [AnthEvent.content_block_stop st.blockIndex]
    let st := {st with blockIndex := st.blockIndex + 1}
    let (restEvents, st') := anthToolLoop hex tcs st
    (events ++ restEvents, st')

/-- Processing of one normalized chunk (anthropic router lines 272-465),
in source order: usage extraction, `message_start` on first content,
then the thinking / thinking-end / plain-text branch chain (a whitespace-
only text delta `continue`s, skipping the tool and finish-reason blocks),
then the tool-call block, then the finish-reason mapping. -/
def anthChunk (hex : Nat → String) (msgId : String) (originalModel : String)
    (c : StreamChunk) (st : AnthState) : List AnthEvent × AnthState :=
  -- usage extraction (`||` keeps the previous value when the field is 0)
  let st := match c.usage with
    | some u =>
      {st with
        inputTokens := if u.prompt_tokens != 0 then u.prompt_tokens else st.inputTokens,
        outputTokens := if u.completion_tokens != 0 then u.completion_tokens else st.outputTokens}
    | none => st
  let delta := c.delta
  let isThinking := delta.thought
  let isThinkingEnd := delta.thinkingEnd
  let thoughtSignature := delta.thoughtSignature
  -- message_start on first content or tool call
  let (ev0, st) :=
    if !st.hasEmittedStart && (contentTruthy delta.content || delta.tool_calls.isSome) then
      ([AnthEvent.message_start msgId originalModel st.inputTokens],
       {st with hasEmittedStart := true})
    else ([], st)
  -- branch chain
  let (ev1, st, skipRest) :=
    if isThinking && contentTruthy delta.content then
      let (evA, st) :=
        if st.currentBlockType != some BlockType.thinking then
          let (evStop, st) :=
            if st.currentBlockType != none then
              ([AnthEvent.content_block_stop st.blockIndex],
               {st with blockIndex := st.blockIndex + 1})
            else ([], st)
          let st := {st with currentBlockType := some BlockType.thinking,
                             currentThinkingSignature := ""}
          (evStop ++ [AnthEvent.content_block_start_thinking st.blockIndex], st)
        else ([], st)
      let st :=
        if isValidSignature thoughtSignature then
          {st with currentThinkingSignature := thoughtSignature}
        else st
      (evA ++ [AnthEvent.content_block_delta_thinking st.blockIndex
                (delta.content.getD "")], st, false)
    else if isThinkingEnd then
      let (evSig, st) :=
        if st.currentBlockType == some BlockType.thinking && st.currentThinkingSignature != "" then
          ([AnthEvent.content_block_delta_signature st.blockIndex
             st.currentThinkingSignature],
           {st with currentThinkingSignature := ""})
        else ([], st)
      let (evStop, st) :=
        if st.currentBlockType != none then
          ([AnthEvent.content_block_stop st.blockIndex],
           {st with blockIndex := st.blockIndex + 1})
        else ([], st)
      (evSig ++ evStop, {st with currentBlockType := none}, false)
    else if contentTruthy delta.content && !isThinking then
      if jsTrim (delta.content.getD "") == "" then
        ([], st, true)  -- `continue`: skip the tool and finish-reason blocks
      else
        let (evA, st) :=
          if st.currentBlockType == some BlockType.thinking then
            let (evSig, st) :=
              if st.currentThinkingSignature != "" then
                ([AnthEvent.content_block_delta_signature st.blockIndex
                   st.currentThinkingSignature],
                 {st with currentThinkingSignature := ""})
              else ([], st)
            (evSig ++ [AnthEvent.content_block_stop st.blockIndex],
             {st with blockIndex := st.blockIndex + 1})
          else ([], st)
        let (evB, st) :=
          if st.currentBlockType != some BlockType.text then
            ([AnthEvent.content_block_start_text st.blockIndex],
             {st with currentBlockType := some BlockType.text})
          else ([], st)
        let st := {st with totalContent := st.totalContent ++ delta.content.getD ""}
        (evA ++ evB ++ [AnthEvent.content_block_delta_text st.blockIndex
                         (delta.content.getD "")], st, false)
    else ([], st, false)
  if skipRest then (ev0 ++ ev1, st)
  else
    -- tool-call block
    let (ev2, st) :=
      match delta.tool_calls with
      | none => ([], st)
      | some tcs =>
        let st := {st with stopReason := "tool_use"}
        let (evSig, st) :=
          if st.currentBlockType == some BlockType.thinking && st.currentThinkingSignature != "" then
            ([AnthEvent.content_block_delta_signature st.blockIndex
               st.currentThinkingSignature],
             {st with currentThinkingSignature := ""})
          else ([], st)
        let (evStop, st) :=
          if st.currentBlockType != none then
            ([AnthEvent.content_block_stop st.blockIndex],
             {st with blockIndex := st.blockIndex + 1})
          else ([], st)
        let st := {st with currentBlockType := some BlockType.tool_use}
        let (evTools, st) := anthToolLoop hex tcs st
        (evSig ++ evStop ++ evTools, {st with currentBlockType := none})
    -- finish-reason mapping
    let st :=
      match c.finish_reason with
      | some fr =>
        if fr == "tool_calls" then {st with stopReason := "tool_use"}
        else if fr == "length" then {st with stopReason := "max_tokens"}
        else st
      | none => st
    (ev0 ++ ev1 ++ ev2, st)

def anthProcess (hex : Nat → String) (msgId : String) (originalModel : String) :
    List StreamChunk → AnthState → List AnthEvent × AnthState
  | [], st => ([], st)
  | c :: cs, st =>
    let (es, st1) := anthChunk hex msgId originalModel c st
    let (rest, st2) := anthProcess hex msgId originalModel cs st1
    (es ++ rest, st2)

/-- Embedding of `streamAnthropicResponse` (anthropic router lines 240-547): the chunk
loop, then the empty-response placeholder or the closing of a still-open
block, then `message_delta` and `message_stop`. -/
def streamAnthropicResponse (hex : Nat → String) (msgId : String)
    (originalModel : String) (chunks : List StreamChunk) : List AnthEvent :=
  let (evs, st) := anthProcess hex msgId originalModel chunks {}
  let tail :=
    if !st.hasEmittedStart then
      [AnthEvent.message_start msgId originalModel 0,
       AnthEvent.content_block_start_text 0,
       AnthEvent.content_block_delta_text 0 "[No response received - please try again]",
       AnthEvent.content_block_stop 0]
    else if st.currentBlockType != none then
      (if st.currentBlockType == some BlockType.thinking && st.currentThinkingSignature != "" then
        [AnthEvent.content_block_delta_signature st.blockIndex
          st.currentThinkingSignature]
      else [])
        ++ [AnthEvent.content_block_stop st.blockIndex]
    else []
  evs ++ tail
    ++ [AnthEvent.message_delta st.stopReason st.outputTokens, AnthEvent.message_stop]

/-! ## JSON values and JavaScript object semantics

The JSON-Schema normalizer operates on arbitrary JSON values.  Objects are
insertion-ordered key/value lists (JavaScript objects cannot hold duplicate
keys; the operations below implement JS property-assignment semantics:
overwrite in place, else append).  Numbers are modelled as integers. -/

inductive Json where
  | null
  | bool (b : Bool)
  | num (n : Int)
  | str (s : String)
  | arr (elems : List Json)
  | obj (entries : List (String × Json))

mutual
def jsonBeq : Json → Json → Bool
  | .null, .null => true
  | .bool a, .bool b => a == b
  | .num a, .num b => a == b
  | .str a, .str b => a == b
  | .arr xs, .arr ys => jsonListBeq xs ys
  | .obj xs, .obj ys => jsonObjBeq xs ys
  | _, _ => false
def jsonListBeq : List Json → List Json → Bool
  | [], [] => true
  | x :: xs, y :: ys => jsonBeq x y && jsonListBeq xs ys
  | _, _ => false
def jsonObjBeq : List (String × Json) → List (String × Json) → Bool
  | [], [] => true
  | (k, v) :: xs, (k2, v2) :: ys => k == k2 && jsonBeq v v2 && jsonObjBeq xs ys
  | _, _ => false
end

instance : BEq Json := ⟨jsonBeq⟩

/-- JS truthiness. -/
def jsTruthy : Json → Bool
  | .null => false
  | .bool b => b
  | .num n => n != 0
  | .str s => s != ""
  | .arr _ => true
  | .obj _ => true

/-- Embedding of `typeof v === "object" && v !== null`. -/
def isObjLike : Json → Bool
  | .obj _ => true
  | .arr _ => true
  | _ => false

def isArrJson : Json → Bool
  | .arr _ => true
  | _ => false

/-- Property lookup on an entry list (keys are unique in JS objects). -/
def jsLookup (entries : List (String × Json)) (k : String) : Option Json :=
  (entries.find? (fun p => p.1 == k)).map (·.2)

/-- Property access `j[k]`; `none` models `undefined`. -/
def jsGet (j : Json) (k : String) : Option Json :=
  match j with
  | .obj es => jsLookup es k
  | _ => none

/-- Property assignment `result[k] = v`: overwrite in place, else append. -/
def jsInsert (entries : List (String × Json)) (k : String) (v : Json) :
    List (String × Json) :=
  if entries.any (fun p => p.1 == k) then
    entries.map (fun p => if p.1 == k then (p.1, v) else p)
  else entries ++ [(k, v)]

def jsFoldAssign (acc : List (String × Json)) (src : List (String × Json)) :
    List (String × Json) :=
  src.foldl (fun a p => jsInsert a p.1 p.2) acc

def digitChar (d : Nat) : Char := Char.ofNat (48 + d % 10)

/-- Decimal digit list of a natural number, most significant first. -/
def natDigits (n : Nat) : List Char :=
  if _h : n < 10 then [digitChar n]
  else natDigits (n / 10) ++ [digitChar n]
termination_by n
decreasing_by exact Nat.div_lt_self (by omega) (by omega)

/-- The string key of array index `n` as seen by `Object.entries` /
`Object.assign`. -/
def jsIndexKey (n : Nat) : String := String.mk (natDigits n)

def jsIndexedEntries : Nat → List Json → List (String × Json)
  | _, [] => []
  | i, x :: xs => (jsIndexKey i, x) :: jsIndexedEntries (i + 1) xs

/-- The own enumerable entries `Object.assign` copies from a source value:
an object's entries, an array's indexed elements, a string's indexed
characters, nothing otherwise. -/
def jsAssignEntries : Json → List (String × Json)
  | .obj es => es
  | .arr xs => jsIndexedEntries 0 xs
  | .str s => jsIndexedEntries 0 (s.data.map (fun ch => Json.str (String.mk [ch])))
  | _ => []

/-- Embedding of `Object.entries` of an object-like value (used by the `properties`
branch, where the value may be an array). -/
def jsEntries : Json → List (String × Json)
  | .obj es => es
  | .arr xs => jsIndexedEntries 0 xs
  | _ => []

mutual
/-- JS `String(v)` coercion. -/
def jsToString : Json → String
  | .null => "null"
  | .bool true => "true"
  | .bool false => "false"
  | .num n => toString n
  | .str s => s
  | .arr xs => jsArrToString xs
  | .obj _ => "[object Object]"
/-- Embedding of `Array.prototype.toString` = `join(",")`, a `null` element contributing
the empty string. -/
def jsArrToString : List Json → String
  | [] => ""
  | [.null] => ""
  | [x] => jsToString x
  | .null :: xs => "," ++ jsArrToString xs
  | x :: xs => jsToString x ++ "," ++ jsArrToString xs
end

/-- Embedding of `String.prototype.replace` with a string pattern: replace the first
occurrence only. -/
def jsReplaceFirst (s pat repl : String) : String :=
  match s.splitOn pat with
  | [] => s
  | [_] => s
  | x :: y :: rest => x ++ repl ++ String.intercalate pat (y :: rest)

/-! ## JSON-Schema normalizer (`mapJsonSchemaToGemini`, src/gemini/mapper.ts lines 53-211) -/

/-- Embedding of `UNSUPPORTED_KEYWORDS` (mapper.ts lines 104-118); `const` is handled
separately and is not in the list. -/
def UNSUPPORTED_KEYWORDS : List String :=
  ["exclusiveMinimum", "exclusiveMaximum", "propertyNames", "minProperties",
   "maxProperties", "default", "$schema", "$id", "additionalProperties",
   "title", "examples", "definitions"]

/-- The union-`type` branch (mapper.ts lines 164-173): single non-null
type plus `"null"` becomes `{type, nullable: true}`; otherwise the first
non-null type (falling back to `"string"` when absent or falsy). -/
def typeArrayActions (v : Json) : List (String × Json) :=
  match v with
  | .arr tys =>
    let nonNull := tys.filter (fun t => !(jsonBeq t (.str "null")))
    match nonNull with
    | [t] =>
      [("type", t)]
        ++ (if tys.any (fun t2 => jsonBeq t2 (.str "null")) then
              [("nullable", Json.bool true)]
            else [])
    | [] => [("type", Json.str "string")]
    | t :: _ => [("type", if jsTruthy t then t else Json.str "string")]
  | _ => []

/-- The `oneOf` / `anyOf` branch (mapper.ts lines 186-204): all-`const`
members collapse to a string enum; otherwise the first member carrying a
truthy `type` supplies the type, default `"string"`.  The `oneOf`/`anyOf`
key itself is dropped. -/
def oneOfActions (v : Json) : List (String × Json) :=
  match v with
  | .arr localVal =>
    let constItems := localVal.filter
      (fun item => isObjLike item && (jsGet item "const").isSome)
    let constValues := constItems.map (fun item => (jsGet item "const").getD .null)
    if constValues.length == localVal.length && constValues.length != 0 then
      [("type", Json.str "string"),
       ("enum", Json.arr (constValues.map (fun w => Json.str (jsToString w))))]
    else
      let firstType := localVal.find?
        (fun item => isObjLike item && jsTruthy ((jsGet item "type").getD .null))
      let tv : Json :=
        match firstType with
        | some item =>
          let t := (jsGet item "type").getD .null
          if jsTruthy t then t else .str "string"
        | none => .str "string"
      [("type", tv)]
  | _ => []

mutual
/-- Embedding of `convertJsonSchemaObject` (mapper.ts lines 120-211).  For
an object, the enum/const pre-pass and the entry loop are rendered as a
list of property assignments applied in order to a fresh result object. -/
def convertJsonSchemaObject : Json → Json
  | .null => .null
  | .bool b => .bool b
  | .num n => .num n
  | .str s => .str s
  | .arr xs => .arr (convertJsonList xs)
  | .obj kvs =>
    let hasEnumArr : Bool :=
      match jsLookup kvs "enum" with
      | some (.arr _) => true
      | _ => false
    let hasConst : Bool := (jsLookup kvs "const").isSome
    let preEnum : List (String × Json) :=
      match jsLookup kvs "enum" with
      | some (.arr vs) =>
        [("type", Json.str "string"),
         ("enum", Json.arr (vs.map (fun v => Json.str (jsToString v))))]
      | _ => []
    let preConst : List (String × Json) :=
      match jsLookup kvs "const" with
      | some cv =>
        let ty : String :=
          match cv with
          | .str _ => "string"
          | .num _ => "number"
          | .bool _ => "boolean"
          | _ => "string"
        [("type", Json.str ty), ("enum", Json.arr [Json.str (jsToString cv)])]
      | none => []
    .obj ((preEnum ++ preConst ++ convertActions hasEnumArr hasConst kvs).foldl
      (fun a p => jsInsert a p.1 p.2) [])
def convertJsonList : List Json → List Json
  | [] => []
  | x :: xs => convertJsonSchemaObject x :: convertJsonList xs
/-- The entry loop of `convertJsonSchemaObject` (mapper.ts lines 151-208)
as a list of assignments: dropped keywords and the type/enum/const skips
contribute nothing; `properties`, `items` and the default branch recurse;
`allOf` contributes the assignments `Object.assign` performs. -/
def convertActions (hasEnumArr hasConst : Bool) :
    List (String × Json) → List (String × Json)
  | [] => []
  | (k, v) :: rest =>
    (if UNSUPPORTED_KEYWORDS.contains k then []
     else if (k == "type" || k == "enum") && (hasEnumArr || hasConst) then []
     else if k == "const" then []
     else if k == "type" && isArrJson v then typeArrayActions v
     else if k == "properties" && isObjLike v then [("properties", convertPropsVal v)]
     else if k == "items" && isObjLike v then [("items", convertJsonSchemaObject v)]
     else if k == "allOf" && isArrJson v then convertAssignVal v
     else if (k == "oneOf" || k == "anyOf") && isArrJson v then oneOfActions v
     else [(k, convertJsonSchemaObject v)])
      ++ convertActions hasEnumArr hasConst rest
/-- Embedding of `result.properties[propKey] = convertJsonSchemaObject(propValue)` over
`Object.entries(value)` (mapper.ts lines 174-178); entries of an array
value are its indexed elements. -/
def convertPropsVal : Json → Json
  | .obj pvs => .obj (convertPropsObj pvs)
  | .arr xs => .obj (convertPropsIdx 0 xs)
  | _ => .obj []
def convertPropsObj : List (String × Json) → List (String × Json)
  | [] => []
  | (pk, pv) :: rest => (pk, convertJsonSchemaObject pv) :: convertPropsObj rest
def convertPropsIdx (i : Nat) : List Json → List (String × Json)
  | [] => []
  | x :: xs => (jsIndexKey i, convertJsonSchemaObject x) :: convertPropsIdx (i + 1) xs
/-- The `allOf` branch (mapper.ts lines 181-185): each member is converted
and its own enumerable entries are assigned into the result in order. -/
def convertAssignVal : Json → List (String × Json)
  | .arr items => convertAssignList items
  | _ => []
def convertAssignList : List Json → List (String × Json)
  | [] => []
  | item :: items =>
    jsAssignEntries (convertJsonSchemaObject item) ++ convertAssignList items
end

mutual
/-- Embedding of `resolveJsonSchemaDefinitions` (mapper.ts lines 70-102).
The source recursion is not structurally bounded (a `$ref` jumps to the
referenced definition and diverges on cyclic definitions), so the model
carries a depth `fuel`; `none` models a computation that exceeds it.  Any
run of the terminating source is reproduced by every sufficiently large
fuel. -/
def resolveJsonSchemaDefinitions : Nat → Json → Json → Option Json
  | 0, _, _ => none
  | fuel + 1, .obj kvs, defs => resolveObjLoop fuel kvs defs []
  | fuel + 1, .arr xs, defs => (resolveList fuel xs defs).map Json.arr
  | _ + 1, j, _ => some j
def resolveList : Nat → List Json → Json → Option (List Json)
  | 0, _, _ => none
  | _ + 1, [], _ => some []
  | fuel + 1, x :: xs, defs =>
    (resolveJsonSchemaDefinitions fuel x defs).bind (fun r =>
      (resolveList fuel xs defs).map (fun rs => r :: rs))
/-- The entry loop of `resolveJsonSchemaDefinitions`: `definitions` is
dropped; a string `$ref` whose target exists returns the deep-resolved
target at once; `allOf` members are resolved and assigned into the result;
every other entry is resolved recursively. -/
def resolveObjLoop : Nat → List (String × Json) → Json → List (String × Json) →
    Option Json
  | 0, _, _, _ => none
  | _ + 1, [], _, acc => some (.obj acc)
  | fuel + 1, (k, v) :: rest, defs, acc =>
    if k == "definitions" then resolveObjLoop fuel rest defs acc
    else
      match k == "$ref", v with
      | true, .str s =>
        let refPath := jsReplaceFirst s "#/definitions/" ""
        (match jsGet defs refPath with
         | some d =>
           if jsTruthy d then resolveJsonSchemaDefinitions fuel d defs
           else resolveObjLoop fuel rest defs acc
         | none => resolveObjLoop fuel rest defs acc)
      | _, _ =>
        match k == "allOf", v with
        | true, .arr items =>
          (resolveAssignLoop fuel items defs acc).bind
            (fun acc2 => resolveObjLoop fuel rest defs acc2)
        | _, _ =>
          (resolveJsonSchemaDefinitions fuel v defs).bind
            (fun rv => resolveObjLoop fuel rest defs (jsInsert acc k rv))
def resolveAssignLoop : Nat → List Json → Json → List (String × Json) →
    Option (List (String × Json))
  | 0, _, _, _ => none
  | _ + 1, [], _, acc => some acc
  | fuel + 1, item :: items, defs, acc =>
    (resolveJsonSchemaDefinitions fuel item defs).bind (fun r =>
      resolveAssignLoop fuel items defs (jsFoldAssign acc (jsAssignEntries r)))
end

/-- Embedding of `mapJsonSchemaToGemini` (mapper.ts lines 53-68): inline
truthy `definitions` through the resolver, then convert; non-objects (and
objects without `definitions`) are converted directly.  `fuel` bounds only
the `$ref`-inlining depth. -/
def mapJsonSchemaToGemini (fuel : Nat) (schema : Json) : Option Json :=
  match schema with
  | .obj kvs =>
    (match jsLookup kvs "definitions" with
     | some defs =>
       if jsTruthy defs then
         (resolveJsonSchemaDefinitions fuel (.obj kvs) defs).map
           convertJsonSchemaObject
       else some (convertJsonSchemaObject (.obj kvs))
     | none => some (convertJsonSchemaObject (.obj kvs)))
  | j => some (convertJsonSchemaObject j)

/-! ## Predicates over JSON values used by the claims -/

mutual
/-- No key from `UNSUPPORTED_KEYWORDS` occurs, at any nesting depth. -/
def forbiddenKeyFree : Json → Bool
  | .obj kvs => forbiddenKeyFreeObj kvs
  | .arr xs => forbiddenKeyFreeList xs
  | _ => true
def forbiddenKeyFreeList : List Json → Bool
  | [] => true
  | x :: xs => forbiddenKeyFree x && forbiddenKeyFreeList xs
def forbiddenKeyFreeObj : List (String × Json) → Bool
  | [] => true
  | (k, v) :: rest =>
    !(UNSUPPORTED_KEYWORDS.contains k) && forbiddenKeyFree v
      && forbiddenKeyFreeObj rest
end

/-- An object entry whose key is not a dropped keyword and whose value is
forbidden-key-free. -/
def cleanEntry (p : String × Json) : Prop :=
  UNSUPPORTED_KEYWORDS.contains p.1 = false ∧ forbiddenKeyFree p.2 = true

/-- No key from `UNSUPPORTED_KEYWORDS` among the immediate keys. -/
def topKeysClean : Json → Bool
  | .obj kvs => kvs.all (fun p => !(UNSUPPORTED_KEYWORDS.contains p.1))
  | _ => true

def nodupKeysB : List (String × Json) → Bool
  | [] => true
  | (k, _) :: rest => !(rest.any (fun p => p.1 == k)) && nodupKeysB rest

/-- Keys on which the normalizer rewrites an object rather than copying
its entry: the dropped keywords plus the specially handled ones. -/
def STABLE_EXCLUDED_KEYS : List String :=
  UNSUPPORTED_KEYWORDS ++ ["const", "allOf", "oneOf", "anyOf", "enum"]

mutual
/-- The already-normalized fragment on which one pass of the normalizer is
the identity: objects with distinct keys avoiding the rewritten keywords,
no array-valued `type`, no array-valued `properties`. -/
def geminiStableForm : Json → Bool
  | .obj kvs => nodupKeysB kvs && geminiStableFormObj kvs
  | .arr xs => geminiStableFormList xs
  | _ => true
def geminiStableFormList : List Json → Bool
  | [] => true
  | x :: xs => geminiStableForm x && geminiStableFormList xs
def geminiStableFormObj : List (String × Json) → Bool
  | [] => true
  | (k, v) :: rest =>
    !(STABLE_EXCLUDED_KEYS.contains k)
      && !(k == "type" && isArrJson v)
      && !(k == "properties" && isArrJson v)
      && geminiStableForm v
      && geminiStableFormObj rest
end

/-! ## Observers over the normalized chunk stream

The thinking-block and role disciplines of the chunk stream are phrased as
left-to-right scans returning `none` on a violation, and otherwise the
final scan flag. -/

/-- One step of the thinking-block scan over flag `openB` (a thinking block
is open): a `_thinkingStart` while open, a `_thinkingEnd` while closed, or
a non-thinking content / tool-call chunk while open are violations. -/
def thinkScanStep (openB : Bool) (c : StreamChunk) : Option Bool :=
  if c.delta.thinkingStart then (if openB then none else some true)
  else if c.delta.thinkingEnd then (if openB then some false else none)
  else if openB && ((contentTruthy c.delta.content && !c.delta.thought)
      || c.delta.tool_calls.isSome) then none
  else some openB

/-- Left scan of a chunk list with a flag, `none` on a violation. -/
def scanChunks (f : Bool → StreamChunk → Option Bool) :
    Bool → List StreamChunk → Option Bool
  | b, [] => some b
  | b, c :: cs =>
    match f b c with
    | none => none
    | some b2 => scanChunks f b2 cs

def thinkScan : Bool → List StreamChunk → Option Bool :=
  scanChunks thinkScanStep

/-- The thinking-block invariant exactly as claimed: the scan never hits a
violation and every opened block is closed by the end of the stream. -/
def thinkingWellFormed (cs : List StreamChunk) : Bool :=
  thinkScan false cs == some false

/-- The delta object carries at least one field. -/
def deltaNonEmpty (d : StreamDelta) : Bool :=
  d.role.isSome || d.content.isSome || d.tool_calls.isSome || d.thought
    || d.thinkingStart || d.thinkingEnd

/-- One step of the role scan over flag `seen` (a non-empty delta has been
emitted): before it, an empty delta must carry no role and the first
non-empty delta must carry role `"assistant"`; afterwards no delta may
carry a role. -/
def roleScanStep (seen : Bool) (c : StreamChunk) : Option Bool :=
  if seen then (if c.delta.role == none then some true else none)
  else if deltaNonEmpty c.delta then
    (if c.delta.role == some "assistant" then some true else none)
  else (if c.delta.role == none then some false else none)

def roleScan : Bool → List StreamChunk → Option Bool :=
  scanChunks roleScanStep

/-! ## Concrete scenario inputs -/

/-- A 100-character signature (the minimum valid length). -/
def sig100 : String := String.mk (List.replicate 100 'a')

/-- The S2 upstream: a thought text part with a valid signature, a
function-call part, then `finishReason "STOP"`. -/
def s2Records : List GRecord :=
  [{ parts := [.text "Let me check" true sig100,
               .functionCall "get_weather" "\x7b\"city\":\"Paris\"\x7d" "s2"] },
   { finishReason := some "STOP" }]

/-- A stream whose `finishReason` arrives while a thinking block is open. -/
def thinkOpenFinishRecords : List GRecord :=
  [{ parts := [.text "t" true ""], finishReason := some "STOP" }]

/-- A plain one-text-part response. -/
def plainTextRecords : List GRecord :=
  [{ parts := [.text "hi" false ""], finishReason := some "STOP" }]

/-- A deterministic supply standing for `crypto.randomUUID()` /
`crypto.randomBytes(12).toString("hex")` in closed scenario runs. -/
def digitSupply : Nat → String := fun n => toString n

/-! # Theorems -/

/-- C7: for every input name (a string, or absent), `mapModelToGemini`
coincides with the spec's six-step reference procedure: absent input yields
`gemini-2.5-pro`; a trailing `[<digits>m]` suffix is stripped; the static
alias table is consulted; known canonical ids and remaining `gemini-`
names pass through; every other name yields `gemini-2.5-pro`. -/
theorem mapModelToGemini_matches_spec (name : Option String) :
    mapModelToGemini name = specModelResolve name := by
  cases name <;> rfl

/-- Behavior of `find?` over a key-preserving entry update. -/
theorem find_map_update_aux (tl : CooldownState) (M : String)
    (f : CooldownEntry → CooldownEntry) :
    (tl.map (fun p => if p.1 == M then (p.1, f p.2) else p)).find?
        (fun p => p.1 == M)
      = (tl.find? (fun p => p.1 == M)).map (fun p => (p.1, f p.2)) := by
  induction tl with
  | nil => simp
  | cons hd tl ih =>
    by_cases hk : (hd.1 == M) = true
    · have hkey : hd.1 = M := by simpa using hk
      simp [List.find?_cons, hk, hkey]
    · have hk' : (hd.1 == M) = false := by simpa using hk
      have hif : (if (hd.1 == M) = true then (hd.1, f hd.2) else hd) = hd := by
        simp [hk']
      rw [List.map_cons, hif]
      simp only [List.find?_cons, hk', ih]

/-- The pair returned by `find?` with a key predicate has that key. -/
theorem find_key_aux (l : CooldownState) (M : String) (pr : String × CooldownEntry)
    (h : l.find? (fun p => p.1 == M) = some pr) : pr.1 = M := by
  induction l with
  | nil => simp at h
  | cons hd tl ih =>
    by_cases hk : (hd.1 == M) = true
    · simp only [List.find?_cons, hk] at h
      cases h
      simpa using hk
    · have hk' : (hd.1 == M) = false := by simpa using hk
      simp only [List.find?_cons, hk'] at h
      exact ih h

/-- Behavior of `find?` after `addRateLimitedModel` yields the fresh timestamp. -/
theorem find_addRateLimitedModel_aux (st : CooldownState) (M : String) (c : Nat)
    (t : Int) :
    ∃ codes, ((addRateLimitedModel st M c t).find? (fun p => p.1 == M))
      = some (M, ⟨t, codes⟩) := by
  unfold addRateLimitedModel
  cases hfind : st.find? (fun p => p.1 == M) with
  | none =>
    refine ⟨[c], ?_⟩
    rw [List.find?_append, hfind]
    simp [List.find?]
  | some pr =>
    have hkey : pr.1 = M := find_key_aux st M pr hfind
    refine ⟨if c ∈ pr.2.statusCodes then pr.2.statusCodes
      else pr.2.statusCodes ++ [c], ?_⟩
    have hmap := find_map_update_aux st M
      (fun e => ⟨t, if c ∈ e.statusCodes then e.statusCodes
        else e.statusCodes ++ [c]⟩)
    rw [hmap, hfind]
    simp [hkey]

/-- C9: a model placed in cooldown by `addRateLimitedModel` at time `t` is
reported in cooldown at a later time `q` exactly when
`t ≤ q < t + 10 minutes`; a second `addRateLimitedModel` call at `t2`
restarts the window from `t2`. -/
theorem cooldown_window (st : CooldownState) (M : String) (c c2 : Nat)
    (t q t2 q2 : Int) (h : t ≤ q) (h2 : t2 ≤ q2) :
    ((isModelInCooldown (addRateLimitedModel st M c t) M q).1 = true
      ↔ (t ≤ q ∧ q < t + 10 * 60 * 1000))
    ∧ ((isModelInCooldown
          (addRateLimitedModel (addRateLimitedModel st M c t) M c2 t2) M q2).1 = true
      ↔ (t2 ≤ q2 ∧ q2 < t2 + 10 * 60 * 1000)) := by
  have hdur : cooldownDurationMs = 600000 := by
    norm_num [cooldownDurationMs, DEFAULT_COOLDOWN_MINUTES]
  constructor
  · obtain ⟨codes, hfind⟩ := find_addRateLimitedModel_aux st M c t
    unfold isModelInCooldown
    rw [hfind]
    dsimp only
    constructor
    · intro hin
      by_cases h6 : q - t < cooldownDurationMs
      · exact ⟨h, by omega⟩
      · rw [if_neg h6] at hin
        simp at hin
    · rintro ⟨-, hq⟩
      rw [if_pos (by omega : q - t < cooldownDurationMs)]
  · obtain ⟨codes, hfind⟩ :=
      find_addRateLimitedModel_aux (addRateLimitedModel st M c t) M c2 t2
    unfold isModelInCooldown
    rw [hfind]
    dsimp only
    constructor
    · intro hin
      by_cases h6 : q2 - t2 < cooldownDurationMs
      · exact ⟨h2, by omega⟩
      · rw [if_neg h6] at hin
        simp at hin
    · rintro ⟨-, hq⟩
      rw [if_pos (by omega : q2 - t2 < cooldownDurationMs)]

theorem cooldown_window_witness :
    ((isModelInCooldown (addRateLimitedModel [] "gemini-2.5-pro" 429 0)
        "gemini-2.5-pro" 1000).1 = true)
    ∧ ((isModelInCooldown
          (addRateLimitedModel (addRateLimitedModel [] "gemini-2.5-pro" 429 0)
            "gemini-2.5-pro" 503 700000) "gemini-2.5-pro" 700001).1 = true) := by
  have h := cooldown_window [] "gemini-2.5-pro" 429 503 0 1000 700000 700001
    (by decide) (by decide)
  exact ⟨h.1.mpr (by constructor <;> decide), h.2.mpr (by constructor <;> decide)⟩

/-- Accumulator form of the content accumulation. -/
theorem getCompletionContent_aux (chunks : List StreamChunk) (acc : String) :
    chunks.foldl
      (fun a c => if contentTruthy c.delta.content then a ++ c.delta.content.getD "" else a)
      acc = acc ++ concatContents chunks := by
  induction chunks generalizing acc with
  | nil => simp [concatContents]
  | cons c cs ih =>
    simp only [List.foldl_cons]
    by_cases ht : contentTruthy c.delta.content = true
    · rw [if_pos ht, ih, concatContents, String.append_assoc]
    · have hz : c.delta.content.getD "" = "" := by
        cases hc : c.delta.content with
        | none => rfl
        | some s =>
          have hs : ¬(s ≠ "") := fun hne => ht (by simp [contentTruthy, hc, hne])
          simpa using hs
      rw [if_neg ht, ih, concatContents, hz]
      simp

/-- C10: the non-streaming accumulator of `getCompletion` returns the
concatenation of the `delta.content` fields of all emitted chunks —
including chunks marked `_thought: true`, which are not filtered out. -/
theorem getCompletion_content_concat (chunks : List StreamChunk) :
    getCompletionContent chunks = concatContents chunks := by
  have h := getCompletionContent_aux chunks ""
  simpa [getCompletionContent] using h

/-- C4: an upstream 429 with no fallback configured (the default
`AUTO_SWITCH_MODEL_MAP` is empty) propagates out of `streamContent`
unchanged, and the Anthropic handler (headers not yet sent) surfaces it as
HTTP 400 with an `invalid_request_error` body whose message is the
`RESOURCE_EXHAUSTED` rate-limit message carrying the reset estimate taken
from the `retry-after` header or the quota-reset regex match. -/
theorem anthropic_rate_limit_400 (model : String) (retryAfterSecs : Option Nat)
    (bodyMatch : Option (Nat × TimeUnit)) (isoNext : String)
    (errorBody : Option String) (cool : CooldownState) (now : Int) :
    streamContentRethrows false cool now model
        (rateLimit429Error model (computeResetMs retryAfterSecs bodyMatch) isoNext errorBody)
      = true
    ∧ (anthropicCompletionErrorResponse
        (rateLimit429Error model (computeResetMs retryAfterSecs bodyMatch) isoNext errorBody)).1
      = 400
    ∧ (anthropicCompletionErrorResponse
        (rateLimit429Error model (computeResetMs retryAfterSecs bodyMatch) isoNext errorBody)).2
      = ⟨"error", ⟨"invalid_request_error",
          rateLimitMessage model (computeResetMs retryAfterSecs bodyMatch) isoNext⟩⟩
    ∧ ∃ (n : Nat) (u : String),
        humanReadable (computeResetMs retryAfterSecs bodyMatch) = toString n ++ u
        ∧ (u = " second(s)" ∨ u = " minute(s)") := by
  refine ⟨?_, ?_, ?_, ?_⟩
  · simp only [streamContentRethrows, rateLimit429Error, isRateLimitStatus,
      shouldAttemptFallback, getFallbackModel, AUTO_SWITCH_MODEL_MAP]
    cases (isModelInCooldown cool model now).1 <;> simp
  · rfl
  · rfl
  · by_cases hr : computeResetMs retryAfterSecs bodyMatch ≥ 60000
    · exact ⟨ceilDiv (computeResetMs retryAfterSecs bodyMatch) 60000, " minute(s)",
        by simp [humanReadable, hr], Or.inr rfl⟩
    · exact ⟨ceilDiv (computeResetMs retryAfterSecs bodyMatch) 1000, " second(s)",
        by simp [humanReadable, hr], Or.inl rfl⟩

/-- C8 counterexample: a request whose model is not in `SUPPORTED_MODELS`
(an Anthropic client's own model name), with a non-empty message list and
no `max_tokens`, is rejected 403 `permission_error` by the model gate that
runs first — not 400 `max_tokens is required`. -/
theorem missing_max_tokens_model_gate_cex :
    anthropicMessagesValidate (fun _ => true) "claude-3-5-sonnet-20241022"
        [⟨"user", "Hello"⟩] none
      = .reject 403 ⟨"error", ⟨"permission_error",
          "Model 'claude-3-5-sonnet-20241022' is not in the supported Gemini model list."⟩⟩
    ∧ anthropicMessagesValidate (fun _ => true) "claude-3-5-sonnet-20241022"
        [⟨"user", "Hello"⟩] none
      ≠ .reject 400 ⟨"error", ⟨"invalid_request_error", "max_tokens is required"⟩⟩ := by
  constructor <;> decide

/-- C8 amended: for a supported, dashboard-enabled model, a request with a
non-empty message list and no `max_tokens` is answered 400 with
`{type: "error", error: {type: "invalid_request_error", message:
"max_tokens is required"}}`, the handler returning before project
discovery or any upstream call. -/
theorem max_tokens_required_400 (policy : String → Bool) (model : String)
    (messages : List AnthropicMessage)
    (hm : model ∈ SUPPORTED_MODELS) (hp : policy model = true)
    (hne : messages ≠ []) :
    anthropicMessagesValidate policy model messages none
      = .reject 400 ⟨"error", ⟨"invalid_request_error", "max_tokens is required"⟩⟩ := by
  have hmB : (model ∈ SUPPORTED_MODELS) = True := by simp [hm]
  unfold anthropicMessagesValidate assertModelEnabled
  simp [hm, hp, maxTokensFalsy, List.isEmpty_iff, hne]

theorem max_tokens_required_400_witness :
    anthropicMessagesValidate (fun _ => true) "gemini-2.5-pro"
        [⟨"user", "Hello"⟩] none
      = .reject 400 ⟨"error", ⟨"invalid_request_error", "max_tokens is required"⟩⟩ :=
  max_tokens_required_400 (fun _ => true) "gemini-2.5-pro" [⟨"user", "Hello"⟩]
    (by decide) rfl (by decide)

/-- C1 counterexample: in the S2 scenario the `content_block_start` of the
tool-use block (the sixth event) carries the id minted by the Gemini client
for the normalized chunk — `call_<uuid>` — which `streamAnthropicResponse`
reuses; it is not of the form `toolu_…` (the `toolu_` fallback fires only
when the incoming chunk carries no id, which the Gemini client never
produces). -/
theorem s2_tool_use_id_cex :
    (streamAnthropicResponse digitSupply "msg_1" "claude-test"
        (streamContentInternal digitSupply s2Records true).1)[5]?
      = some (.content_block_start_tool_use 1 "call_0" "get_weather" none)
    ∧ "call_0".data.take 6 ≠ "toolu_".data := by
  constructor <;> decide

/-- C1 amended: for the S2 upstream (thought text part with a ≥100-char
signature, then a function-call part, then finishReason `STOP`), the
composed pipeline — `streamContentInternal` feeding
`streamAnthropicResponse` — emits exactly: `message_start`;
`content_block_start{0, thinking}`; `thinking_delta{0}`;
`signature_delta{0}`; `content_block_stop{0}`;
`content_block_start{1, tool_use, name, id = call_<uuid>}`;
`input_json_delta{1}`; `content_block_stop{1}`;
`message_delta{stop_reason: tool_use}`; `message_stop` — for every uuid
supply, hex supply, message id and model. -/
theorem s2_anthropic_event_sequence (uuid hex : Nat → String)
    (msgId mdl : String) :
    streamAnthropicResponse hex msgId mdl
        (streamContentInternal uuid s2Records true).1
      = [.message_start msgId mdl 0,
         .content_block_start_thinking 0,
         .content_block_delta_thinking 0 "Let me check",
         .content_block_delta_signature 0 sig100,
         .content_block_stop 0,
         .content_block_start_tool_use 1 ("call_" ++ uuid 0) "get_weather" none,
         .content_block_delta_input_json 1 "\x7b\"city\":\"Paris\"\x7d",
         .content_block_stop 1,
         .message_delta "tool_use" 0,
         .message_stop] := rfl

/-- C2 counterexample: when `finishReason` arrives in a record while a
thinking block is open, `streamContentInternal` emits the terminal chunk
and returns without a `_thinkingEnd` chunk, so the `_thinkingStart` chunk
of this stream is never paired. -/
theorem thinking_pairing_cex :
    thinkingWellFormed
        (streamContentInternal digitSupply thinkOpenFinishRecords true).1
      = false := by decide

/-- C5 counterexample: the `firstChunk` flag is instance state of the
`GeminiApiClient` and is never reset, so after a first response has been
streamed, a second response through the same client carries no
`role = "assistant"` on any chunk — its first (non-empty, content-bearing)
chunk has no role. -/
theorem role_second_response_cex :
    (streamContentInternal digitSupply plainTextRecords true).2.firstChunk = false
    ∧ (streamContentInternal digitSupply plainTextRecords false).1[0]?
      = some { delta := { content := some "hi" } }
    ∧ deltaNonEmpty { content := some "hi" } = true := by
  refine ⟨?_, ?_, ?_⟩ <;> decide

theorem scanChunks_append_aux (f : Bool → StreamChunk → Option Bool) (b : Bool)
    (xs ys : List StreamChunk) :
    scanChunks f b (xs ++ ys)
      = (scanChunks f b xs).bind (fun b2 => scanChunks f b2 ys) := by
  induction xs generalizing b with
  | nil => simp [scanChunks]
  | cons c cs ih =>
    simp only [List.cons_append, scanChunks]
    cases f b c with
    | none => simp
    | some b2 => simp [ih]

theorem applyUsage_fields_aux (u : Option UsageMetadata) (st : GenState) :
    (applyUsage u st).thinkingInProgress = st.thinkingInProgress
    ∧ (applyUsage u st).firstChunk = st.firstChunk := by
  cases u <;> simp [applyUsage]

/-- Thinking-scan of the chunks of one part: the scan flag tracks the
generator's `thinkingInProgress`. -/
theorem thinkScan_processPart_aux (uuid : Nat → String) (p : GPart) (st : GenState) :
    scanChunks thinkScanStep st.thinkingInProgress (processPart uuid p st).1
      = some (processPart uuid p st).2.thinkingInProgress := by
  cases p with
  | text t thought sig =>
    cases thought
      <;> cases hf : st.firstChunk
      <;> cases hth : st.thinkingInProgress
      <;> simp [processPart, scanChunks, thinkScanStep, thinkingEndChunk, hf, hth]
  | functionCall name argsJson sig =>
    cases hf : st.firstChunk
      <;> cases hth : st.thinkingInProgress
      <;> simp [processPart, scanChunks, thinkScanStep, thinkingEndChunk, hf, hth]
  | other => simp [processPart, scanChunks]

theorem thinkScan_processParts_aux (uuid : Nat → String) (ps : List GPart)
    (st : GenState) :
    scanChunks thinkScanStep st.thinkingInProgress (processParts uuid ps st).1
      = some (processParts uuid ps st).2.thinkingInProgress := by
  induction ps generalizing st with
  | nil => simp [processParts, scanChunks]
  | cons p ps ih =>
    simp only [processParts]
    rw [scanChunks_append_aux, thinkScan_processPart_aux]
    simpa using ih (processPart uuid p st).2

theorem thinkScan_processRecords_aux (uuid : Nat → String) (recs : List GRecord)
    (st : GenState) :
    (scanChunks thinkScanStep st.thinkingInProgress
        (processRecords uuid recs st).1).isSome = true
    ∧ ((recs.all fun r => r.finishReason.isNone) = true →
        scanChunks thinkScanStep st.thinkingInProgress
          (processRecords uuid recs st).1 = some false) := by
  induction recs generalizing st with
  | nil =>
    cases hth : st.thinkingInProgress
      <;> simp [processRecords, scanChunks, thinkScanStep, thinkingEndChunk,
            terminalChunk, contentTruthy, hth]
  | cons r rs ih =>
    simp only [processRecords]
    cases hfr : r.finishReason with
    | some fr =>
      constructor
      · rw [scanChunks_append_aux, thinkScan_processParts_aux]
        simp [scanChunks, thinkScanStep, terminalChunk, contentTruthy]
      · intro hall
        simp [List.all_cons, hfr] at hall
    | none =>
      have hpres := applyUsage_fields_aux r.usageMetadata
        (processParts uuid r.parts st).2
      constructor
      · rw [scanChunks_append_aux, thinkScan_processParts_aux]
        have := (ih (applyUsage r.usageMetadata (processParts uuid r.parts st).2)).1
        rw [hpres.1] at this
        simpa using this
      · intro hall
        simp only [List.all_cons, Bool.and_eq_true] at hall
        rw [scanChunks_append_aux, thinkScan_processParts_aux]
        have := (ih (applyUsage r.usageMetadata (processParts uuid r.parts st).2)).2
          hall.2
        rw [hpres.1] at this
        simpa using this

/-- C2 amended: for every upstream record sequence, the normalized chunk
stream keeps at most one thinking block open at a time, emits no
non-thinking content chunk while one is open, and never emits a stray
`_thinkingEnd`; moreover, when the upstream ends without an explicit
`finishReason`, every `_thinkingStart` is paired with a `_thinkingEnd`
(the stream scans to a closed state).  Exact pairing is *not* guaranteed
when a `finishReason` arrives while a thinking block is open: the
generator then returns without a `_thinkingEnd` (see the counterexample). -/
theorem thinking_block_invariant (uuid : Nat → String) (recs : List GRecord)
    (first : Bool) :
    (thinkScan false (streamContentInternal uuid recs first).1).isSome = true
    ∧ ((recs.all fun r => r.finishReason.isNone) = true →
        thinkingWellFormed (streamContentInternal uuid recs first).1 = true) := by
  have h := thinkScan_processRecords_aux uuid recs { firstChunk := first }
  constructor
  · exact h.1
  · intro hall
    have h2 := h.2 hall
    simp [thinkingWellFormed, thinkScan, streamContentInternal]
    exact h2

theorem thinking_block_invariant_witness :
    (thinkScan false (streamContentInternal digitSupply
        [{ parts := [.text "think" true "", .text "answer" false ""] }] true).1).isSome
      = true
    ∧ thinkingWellFormed (streamContentInternal digitSupply
        [{ parts := [.text "think" true "", .text "answer" false ""] }] true).1
      = true := by
  have h := thinking_block_invariant digitSupply
    [{ parts := [.text "think" true "", .text "answer" false ""] }] true
  exact ⟨h.1, h.2 (by decide)⟩

/-- Role-scan of the chunks of one part: the `seen` flag tracks the
negation of the generator's `firstChunk`, provided a thinking block can
only be open once a chunk has been emitted. -/
theorem roleScan_processPart_aux (uuid : Nat → String) (p : GPart) (st : GenState)
    (hok : st.thinkingInProgress = true → st.firstChunk = false) :
    scanChunks roleScanStep (!st.firstChunk) (processPart uuid p st).1
      = some (!(processPart uuid p st).2.firstChunk)
    ∧ ((processPart uuid p st).2.thinkingInProgress = true →
        (processPart uuid p st).2.firstChunk = false) := by
  cases p with
  | text t thought sig =>
    cases thought
      <;> cases hf : st.firstChunk
      <;> cases hth : st.thinkingInProgress
      <;> simp [hf, hth] at hok
      <;> simp [processPart, scanChunks, roleScanStep, deltaNonEmpty,
            thinkingEndChunk, hf, hth]
  | functionCall name argsJson sig =>
    cases hf : st.firstChunk
      <;> cases hth : st.thinkingInProgress
      <;> simp [hf, hth] at hok
      <;> simp [processPart, scanChunks, roleScanStep, deltaNonEmpty,
            thinkingEndChunk, hf, hth]
  | other => simpa [processPart, scanChunks] using hok

theorem roleScan_processParts_aux (uuid : Nat → String) (ps : List GPart)
    (st : GenState)
    (hok : st.thinkingInProgress = true → st.firstChunk = false) :
    scanChunks roleScanStep (!st.firstChunk) (processParts uuid ps st).1
      = some (!(processParts uuid ps st).2.firstChunk)
    ∧ ((processParts uuid ps st).2.thinkingInProgress = true →
        (processParts uuid ps st).2.firstChunk = false) := by
  induction ps generalizing st with
  | nil => simpa [processParts, scanChunks] using hok
  | cons p ps ih =>
    have h1 := roleScan_processPart_aux uuid p st hok
    have h2 := ih (processPart uuid p st).2 h1.2
    simp only [processParts]
    rw [scanChunks_append_aux, h1.1]
    simpa using h2

theorem roleScan_processRecords_aux (uuid : Nat → String) (recs : List GRecord)
    (st : GenState)
    (hok : st.thinkingInProgress = true → st.firstChunk = false) :
    scanChunks roleScanStep (!st.firstChunk) (processRecords uuid recs st).1
      = some (!(processRecords uuid recs st).2.firstChunk) := by
  induction recs generalizing st with
  | nil =>
    cases hth : st.thinkingInProgress
    · cases hf2 : st.firstChunk
        <;> simp [processRecords, scanChunks, roleScanStep, deltaNonEmpty,
              terminalChunk, hth, hf2]
    · have hf : st.firstChunk = false := hok hth
      simp [processRecords, scanChunks, roleScanStep, deltaNonEmpty,
        terminalChunk, thinkingEndChunk, hth, hf]
  | cons r rs ih =>
    have h1 := roleScan_processParts_aux uuid r.parts st hok
    have hpres := applyUsage_fields_aux r.usageMetadata
      (processParts uuid r.parts st).2
    simp only [processRecords]
    cases hfr : r.finishReason with
    | some fr =>
      rw [scanChunks_append_aux, h1.1]
      cases hf2 : (processParts uuid r.parts st).2.firstChunk
        <;> simp [scanChunks, roleScanStep, deltaNonEmpty, terminalChunk,
              hpres.2, hf2]
    | none =>
      have h2 := ih (applyUsage r.usageMetadata (processParts uuid r.parts st).2)
        (by rw [hpres.1, hpres.2]; exact h1.2)
      rw [scanChunks_append_aux, h1.1]
      rw [hpres.2] at h2
      simpa using h2

/-- C5 amended: within the response streamed through a `GeminiApiClient`
whose `firstChunk` flag is `first`, the role scan succeeds with the flag
tracking the flag's consumption: when `first = true` (a fresh client), the
first chunk with a non-empty delta — and only it — carries
`role = "assistant"`; when `first = false` (any later response through the
same instance, the flag never being reset), no chunk of the response
carries a role. -/
theorem role_first_chunk_invariant (uuid : Nat → String) (recs : List GRecord)
    (first : Bool) :
    roleScan (!first) (streamContentInternal uuid recs first).1
      = some (!(streamContentInternal uuid recs first).2.firstChunk) := by
  exact roleScan_processRecords_aux uuid recs { firstChunk := first }
    (by intro h; simp at h)

/-! ### Size and membership auxiliaries for the JSON inductions -/

theorem sizeOf_val_lt_obj_aux {k : String} {v : Json} {kvs : List (String × Json)}
    (h : (k, v) ∈ kvs) : sizeOf v < sizeOf (Json.obj kvs) := by
  have h1 := List.sizeOf_lt_of_mem h
  have h2 : sizeOf (k, v) = 1 + sizeOf k + sizeOf v := by simp
  have h3 : sizeOf (Json.obj kvs) = 1 + sizeOf kvs := by simp
  omega

theorem sizeOf_snd_lt_obj_aux {p : String × Json} {kvs : List (String × Json)}
    (h : p ∈ kvs) : sizeOf p.2 < sizeOf (Json.obj kvs) := by
  have : (p.1, p.2) ∈ kvs := by simpa using h
  exact sizeOf_val_lt_obj_aux this

theorem sizeOf_elem_lt_arr_aux {x : Json} {xs : List Json} (h : x ∈ xs) :
    sizeOf x < sizeOf (Json.arr xs) := by
  have h1 := List.sizeOf_lt_of_mem h
  have h3 : sizeOf (Json.arr xs) = 1 + sizeOf xs := by simp
  omega

theorem geminiStableFormObj_mem_aux {kvs : List (String × Json)}
    (hs : geminiStableFormObj kvs = true) {p : String × Json} (hp : p ∈ kvs) :
    STABLE_EXCLUDED_KEYS.contains p.1 = false
    ∧ (p.1 == "type" && isArrJson p.2) = false
    ∧ (p.1 == "properties" && isArrJson p.2) = false
    ∧ geminiStableForm p.2 = true := by
  induction kvs with
  | nil => cases hp
  | cons hd tl ih =>
    obtain ⟨k, v⟩ := hd
    simp only [geminiStableFormObj, Bool.and_eq_true, Bool.not_eq_true'] at hs
    rcases List.mem_cons.mp hp with rfl | hp2
    · exact ⟨hs.1.1.1.1, hs.1.1.1.2, hs.1.1.2, hs.1.2⟩
    · exact ih hs.2 hp2

theorem geminiStableFormList_mem_aux {xs : List Json}
    (hs : geminiStableFormList xs = true) {x : Json} (hx : x ∈ xs) :
    geminiStableForm x = true := by
  induction xs with
  | nil => cases hx
  | cons hd tl ih =>
    simp only [geminiStableFormList, Bool.and_eq_true] at hs
    rcases List.mem_cons.mp hx with rfl | hx2
    · exact hs.1
    · exact ih hs.2 hx2

theorem stable_lookup_none_aux {kvs : List (String × Json)}
    (hs : geminiStableFormObj kvs = true) (k : String)
    (hk : STABLE_EXCLUDED_KEYS.contains k = true) :
    jsLookup kvs k = none := by
  induction kvs with
  | nil => rfl
  | cons hd tl ih =>
    obtain ⟨k1, v1⟩ := hd
    simp only [geminiStableFormObj, Bool.and_eq_true, Bool.not_eq_true'] at hs
    have hne : (k1 == k) = false := by
      rcases hq : (k1 == k) with _ | _
      · rfl
      · have : k1 = k := by simpa using hq
        rw [this] at hs
        rw [hs.1.1.1.1] at hk
        cases hk
    simp only [jsLookup, List.find?_cons, hne]
    exact ih hs.2

/-- Folding fresh distinct-key insertions is plain concatenation. -/
theorem foldl_jsInsert_fresh_aux (kvs : List (String × Json)) :
    ∀ acc : List (String × Json), nodupKeysB kvs = true →
      (∀ p ∈ kvs, acc.any (fun q => q.1 == p.1) = false) →
      kvs.foldl (fun a p => jsInsert a p.1 p.2) acc = acc ++ kvs := by
  induction kvs with
  | nil => intro acc _ _; simp
  | cons hd tl ih =>
    intro acc hnd hdisj
    obtain ⟨k, v⟩ := hd
    simp only [nodupKeysB, Bool.and_eq_true, Bool.not_eq_true'] at hnd
    have hfresh : acc.any (fun q => q.1 == k) = false :=
      hdisj (k, v) (List.mem_cons_self _ _)
    have hins : jsInsert acc k v = acc ++ [(k, v)] := by
      simp [jsInsert, hfresh]
    simp only [List.foldl_cons]
    rw [hins, ih (acc ++ [(k, v)]) hnd.2]
    · simp
    · intro p hp
      rw [List.any_append]
      have h1 : acc.any (fun q => q.1 == p.1) = false :=
        hdisj p (List.mem_cons_of_mem _ hp)
      have h2 : (k == p.1) = false := by
        rcases hq : (k == p.1) with _ | _
        · rfl
        · have hkp : k = p.1 := by simpa using hq
          have : tl.any (fun q => q.1 == k) = true := by
            refine List.any_eq_true.mpr ⟨p, hp, ?_⟩
            simp [hkp]
          rw [this] at hnd
          exact absurd hnd.1 (by simp)
      simp [h1, h2]

theorem convertJsonList_id_aux (xs : List Json)
    (h : ∀ x ∈ xs, convertJsonSchemaObject x = x) : convertJsonList xs = xs := by
  induction xs with
  | nil => rfl
  | cons hd tl ih =>
    simp only [convertJsonList]
    rw [h hd (List.mem_cons_self _ _), ih (fun x hx => h x (List.mem_cons_of_mem _ hx))]

theorem convertPropsObj_id_aux (pvs : List (String × Json))
    (h : ∀ p ∈ pvs, convertJsonSchemaObject p.2 = p.2) :
    convertPropsObj pvs = pvs := by
  induction pvs with
  | nil => rfl
  | cons hd tl ih =>
    obtain ⟨pk, pv⟩ := hd
    simp only [convertPropsObj]
    rw [show convertJsonSchemaObject pv = pv from h (pk, pv) (List.mem_cons_self _ _),
      ih (fun p hp => h p (List.mem_cons_of_mem _ hp))]

/-- The facts about a key outside `STABLE_EXCLUDED_KEYS` needed to walk the
branch chain of the conversion loop. -/
theorem not_excluded_key_facts_aux (k : String)
    (hk : STABLE_EXCLUDED_KEYS.contains k = false) :
    k ∉ UNSUPPORTED_KEYWORDS ∧ (k == "const") = false
    ∧ (k == "allOf") = false ∧ (k == "oneOf") = false ∧ (k == "anyOf") = false
    ∧ (k == "enum") = false := by
  have hmem : k ∉ STABLE_EXCLUDED_KEYS := by
    intro hin
    have h1 : STABLE_EXCLUDED_KEYS.contains k = true := List.elem_iff.mpr hin
    exact absurd h1 (by rw [hk]; simp)
  have hne : ∀ w : String, w ∈ STABLE_EXCLUDED_KEYS → (k == w) = false := by
    intro w hw
    rcases hq : (k == w) with _ | _
    · rfl
    · have hkw : k = w := by simpa using hq
      subst hkw
      exact absurd hw hmem
  exact ⟨fun hin => hmem (List.mem_append_left _ hin),
    hne "const" (by decide), hne "allOf" (by decide), hne "oneOf" (by decide),
    hne "anyOf" (by decide), hne "enum" (by decide)⟩

/-- On a stable object the conversion loop reproduces the entry list. -/
theorem convertActions_stable_id_aux (kvs : List (String × Json))
    (hs : geminiStableFormObj kvs = true)
    (hconv : ∀ p ∈ kvs, convertJsonSchemaObject p.2 = p.2)
    (hpv : ∀ p ∈ kvs, ∀ pvs, p.2 = Json.obj pvs → convertPropsObj pvs = pvs) :
    convertActions false false kvs = kvs := by
  induction kvs with
  | nil => rfl
  | cons hd tl ih =>
    obtain ⟨k, v⟩ := hd
    have hmem : (k, v) ∈ (k, v) :: tl := List.mem_cons_self _ _
    obtain ⟨hk, hty, hpr, _⟩ := geminiStableFormObj_mem_aux hs hmem
    obtain ⟨hun, hconst, hallof, honeof, hanyof, henum2⟩ :=
      not_excluded_key_facts_aux k hk
    have hs2 := hs
    simp only [geminiStableFormObj, Bool.and_eq_true] at hs2
    have ihtl := ih hs2.2 (fun p hp => hconv p (List.mem_cons_of_mem _ hp))
      (fun p hp => hpv p (List.mem_cons_of_mem _ hp))
    have hcv : convertJsonSchemaObject v = v := hconv (k, v) hmem
    simp only [convertActions]
    rw [ihtl]
    rcases hq : (k == "properties") with _ | _
    · rcases hi : (k == "items") with _ | _
      · simp [hun, hconst, hty, hallof, honeof, hanyof, hq, hi, hcv]
      · have hki : k = "items" := by simpa using hi
        subst hki
        cases v <;> simp [hun, hconst, hty, hallof, honeof, hanyof, hq,
          isObjLike, hcv]
    · have hkp : k = "properties" := by simpa using hq
      subst hkp
      cases hv : v with
      | arr xs =>
        rw [hv] at hpr
        simp [isArrJson] at hpr
      | obj pvs =>
        have hppo : convertPropsObj pvs = pvs := hpv _ hmem pvs hv
        subst hv
        simp [hun, hconst, hallof, honeof, hanyof, isObjLike, convertPropsVal,
          hppo]
      | null =>
        subst hv
        simp [hun, hconst, hty, hallof, honeof, hanyof, isObjLike, hcv]
      | bool b =>
        subst hv
        simp [hun, hconst, hty, hallof, honeof, hanyof, isObjLike, hcv]
      | num m =>
        subst hv
        simp [hun, hconst, hty, hallof, honeof, hanyof, isObjLike, hcv]
      | str t =>
        subst hv
        simp [hun, hconst, hty, hallof, honeof, hanyof, isObjLike, hcv]

/-- One pass of the normalizer is the identity on the stable fragment. -/
theorem stable_convert_id_aux :
    ∀ (n : Nat) (s : Json), sizeOf s ≤ n → geminiStableForm s = true →
      convertJsonSchemaObject s = s := by
  intro n
  induction n with
  | zero =>
    intro s hsize _
    exfalso
    cases s <;> simp at hsize
  | succ n ih =>
    intro s hsize hs
    cases s with
    | null => rfl
    | bool b => rfl
    | num m => rfl
    | str t => rfl
    | arr xs =>
      have hsl : geminiStableFormList xs = true := by
        simpa [geminiStableForm] using hs
      have hlist : convertJsonList xs = xs := by
        apply convertJsonList_id_aux
        intro x hx
        have hsz : sizeOf x < sizeOf (Json.arr xs) := sizeOf_elem_lt_arr_aux hx
        exact ih x (by omega) (geminiStableFormList_mem_aux hsl hx)
      simp only [convertJsonSchemaObject, hlist]
    | obj kvs =>
      have hsplit : nodupKeysB kvs = true ∧ geminiStableFormObj kvs = true := by
        simpa [geminiStableForm, Bool.and_eq_true] using hs
      have henum : jsLookup kvs "enum" = none :=
        stable_lookup_none_aux hsplit.2 "enum" (by decide)
      have hconst : jsLookup kvs "const" = none :=
        stable_lookup_none_aux hsplit.2 "const" (by decide)
      have hconv : ∀ p ∈ kvs, convertJsonSchemaObject p.2 = p.2 := by
        intro p hp
        have hsz : sizeOf p.2 < sizeOf (Json.obj kvs) := sizeOf_snd_lt_obj_aux hp
        exact ih p.2 (by omega) (geminiStableFormObj_mem_aux hsplit.2 hp).2.2.2
      have hpv : ∀ p ∈ kvs, ∀ pvs, p.2 = Json.obj pvs →
          convertPropsObj pvs = pvs := by
        intro p hp pvs hpe
        have hstv := (geminiStableFormObj_mem_aux hsplit.2 hp).2.2.2
        rw [hpe] at hstv
        have hsplit2 : nodupKeysB pvs = true ∧ geminiStableFormObj pvs = true := by
          simpa [geminiStableForm, Bool.and_eq_true] using hstv
        apply convertPropsObj_id_aux
        intro q hq
        have hsz1 : sizeOf q.2 < sizeOf (Json.obj pvs) := sizeOf_snd_lt_obj_aux hq
        have hsz2 : sizeOf p.2 < sizeOf (Json.obj kvs) := sizeOf_snd_lt_obj_aux hp
        rw [hpe] at hsz2
        exact ih q.2 (by omega) (geminiStableFormObj_mem_aux hsplit2.2 hq).2.2.2
      have hact := convertActions_stable_id_aux kvs hsplit.2 hconv hpv
      have hfold := foldl_jsInsert_fresh_aux kvs [] hsplit.1 (by simp)
      simp only [convertJsonSchemaObject, henum, hconst, Option.isSome_none]
      rw [hact]
      simp only [List.nil_append]
      rw [hfold]
      simp


/-- Characterization of `forbiddenKeyFreeObj` by entrywise cleanliness. -/
theorem forbFreeObj_iff_aux (kvs : List (String × Json)) :
    forbiddenKeyFreeObj kvs = true ↔ ∀ p ∈ kvs, cleanEntry p := by
  induction kvs with
  | nil => simp [forbiddenKeyFreeObj]
  | cons hd tl ih =>
    obtain ⟨k, v⟩ := hd
    simp only [forbiddenKeyFreeObj, Bool.and_eq_true, Bool.not_eq_true',
      List.forall_mem_cons, ih, cleanEntry]

/-- Characterization of `forbiddenKeyFreeList` by elementwise freeness. -/
theorem forbFreeList_iff_aux (xs : List Json) :
    forbiddenKeyFreeList xs = true ↔ ∀ x ∈ xs, forbiddenKeyFree x = true := by
  induction xs with
  | nil => simp [forbiddenKeyFreeList]
  | cons hd tl ih =>
    simp [forbiddenKeyFreeList, Bool.and_eq_true, ih]

/-- A property assignment preserves an entrywise predicate. -/
theorem jsInsert_pred_aux (Q : String × Json → Prop) (acc : List (String × Json))
    (k : String) (v : Json) (hacc : ∀ p ∈ acc, Q p) (hkv : Q (k, v)) :
    ∀ p ∈ jsInsert acc k v, Q p := by
  intro p hp
  unfold jsInsert at hp
  by_cases h : acc.any (fun q => q.1 == k) = true
  · rw [if_pos h] at hp
    rcases List.mem_map.mp hp with ⟨q, hq, hqe⟩
    by_cases hq1 : (q.1 == k) = true
    · rw [if_pos hq1] at hqe
      have hk1 : q.1 = k := by simpa using hq1
      rw [hk1] at hqe
      exact hqe ▸ hkv
    · rw [if_neg hq1] at hqe
      exact hqe ▸ hacc q hq
  · rw [if_neg h] at hp
    rcases List.mem_append.mp hp with h1 | h1
    · exact hacc p h1
    · have hpe : p = (k, v) := by simpa using h1
      exact hpe ▸ hkv

/-- Folding property assignments preserves an entrywise predicate. -/
theorem foldl_jsInsert_pred_aux (Q : String × Json → Prop) :
    ∀ (acts acc : List (String × Json)), (∀ p ∈ acc, Q p) → (∀ p ∈ acts, Q p) →
      ∀ p ∈ acts.foldl (fun a q => jsInsert a q.1 q.2) acc, Q p := by
  intro acts
  induction acts with
  | nil =>
    intro acc hacc _ p hp
    exact hacc p (by simpa using hp)
  | cons hd tl ih =>
    intro acc hacc hacts p hp
    simp only [List.foldl_cons] at hp
    refine ih (jsInsert acc hd.1 hd.2) ?_ ?_ p hp
    · exact jsInsert_pred_aux Q acc hd.1 hd.2 hacc (hacts hd (List.mem_cons_self _ _))
    · exact fun q hq => hacts q (List.mem_cons_of_mem _ hq)

/-- Every `digitChar` is a decimal digit. -/
theorem digitChar_isDigit_aux (d : Nat) : (digitChar d).isDigit = true := by
  have h : d % 10 < 10 := Nat.mod_lt _ (by omega)
  unfold digitChar
  set r := d % 10 with hr
  interval_cases r <;> decide

/-- Every character of `natDigits` is a decimal digit. -/
theorem natDigits_all_digit_aux : ∀ n : Nat, (natDigits n).all Char.isDigit = true := by
  intro n
  induction n using Nat.strong_induction_on with
  | _ n ih =>
    rw [natDigits]
    split
    · simp [digitChar_isDigit_aux]
    · next h =>
      have hdiv : n / 10 < n := Nat.div_lt_self (by omega) (by omega)
      simp [List.all_append, ih _ hdiv, digitChar_isDigit_aux]

/-- An array index key is never a dropped keyword. -/
theorem jsIndexKey_not_forbidden_aux (i : Nat) :
    UNSUPPORTED_KEYWORDS.contains (jsIndexKey i) = false := by
  rcases hc : UNSUPPORTED_KEYWORDS.contains (jsIndexKey i) with _ | _
  · rfl
  · exfalso
    have hmem : jsIndexKey i ∈ UNSUPPORTED_KEYWORDS := List.elem_iff.mp hc
    have hall : (jsIndexKey i).data.all Char.isDigit = true := natDigits_all_digit_aux i
    simp only [UNSUPPORTED_KEYWORDS, List.mem_cons, List.not_mem_nil, or_false] at hmem
    rcases hmem with h|h|h|h|h|h|h|h|h|h|h|h <;> rw [h] at hall <;>
      exact absurd hall (by decide)

/-- A value looked up in a forbidden-key-free object is forbidden-key-free. -/
theorem forbFree_lookup_aux {kvs : List (String × Json)} {k : String} {v : Json}
    (h : forbiddenKeyFreeObj kvs = true) (hl : jsLookup kvs k = some v) :
    forbiddenKeyFree v = true := by
  unfold jsLookup at hl
  rcases Option.map_eq_some'.mp hl with ⟨p, hp, hpv⟩
  have hpm : p ∈ kvs := List.mem_of_find?_eq_some hp
  have hcl := ((forbFreeObj_iff_aux kvs).mp h p hpm).2
  rw [← hpv]
  exact hcl

/-- A value read off a forbidden-key-free value is forbidden-key-free. -/
theorem forbFree_jsGet_aux {j v : Json} {k : String}
    (h : forbiddenKeyFree j = true) (hg : jsGet j k = some v) :
    forbiddenKeyFree v = true := by
  cases j with
  | obj es => exact forbFree_lookup_aux (by simpa [forbiddenKeyFree] using h) hg
  | null => cases hg
  | bool b => cases hg
  | num n => cases hg
  | str s => cases hg
  | arr xs => cases hg

/-- A forbidden-key-free object has no entry at a dropped keyword. -/
theorem forbFree_lookup_none_aux {kvs : List (String × Json)} {k : String}
    (h : forbiddenKeyFreeObj kvs = true)
    (hk : UNSUPPORTED_KEYWORDS.contains k = true) :
    jsLookup kvs k = none := by
  rcases hl : jsLookup kvs k with _ | v
  · rfl
  · exfalso
    unfold jsLookup at hl
    rcases Option.map_eq_some'.mp hl with ⟨p, hp, _⟩
    have hpm : p ∈ kvs := List.mem_of_find?_eq_some hp
    have hkeq : p.1 = k := by simpa using List.find?_some hp
    have hclean := ((forbFreeObj_iff_aux kvs).mp h p hpm).1
    rw [hkeq] at hclean
    rw [hclean] at hk
    cases hk

/-- A list of string values is forbidden-key-free. -/
theorem strList_forbFree_aux (l : List Json) (f : Json → String) :
    forbiddenKeyFreeList (l.map (fun w => Json.str (f w))) = true := by
  induction l with
  | nil => rfl
  | cons hd tl ih => simpa [forbiddenKeyFreeList, forbiddenKeyFree] using ih

/-- Indexed entries of forbidden-key-free elements are clean. -/
theorem jsIndexedEntries_clean_aux :
    ∀ (xs : List Json) (i : Nat), (∀ x ∈ xs, forbiddenKeyFree x = true) →
      ∀ p ∈ jsIndexedEntries i xs, cleanEntry p := by
  intro xs
  induction xs with
  | nil => intro i _ p hp; simp [jsIndexedEntries] at hp
  | cons hd tl ih =>
    intro i hx p hp
    simp only [jsIndexedEntries] at hp
    rcases List.mem_cons.mp hp with hp | hp
    · rw [hp]
      exact ⟨jsIndexKey_not_forbidden_aux i, hx hd (List.mem_cons_self _ _)⟩
    · exact ih (i + 1) (fun x h => hx x (List.mem_cons_of_mem _ h)) p hp

/-- The own enumerable entries of a forbidden-key-free value are clean. -/
theorem jsAssignEntries_clean_aux {j : Json} (h : forbiddenKeyFree j = true) :
    ∀ p ∈ jsAssignEntries j, cleanEntry p := by
  cases j with
  | obj es =>
    exact fun p hp => (forbFreeObj_iff_aux es).mp (by simpa [forbiddenKeyFree] using h) p hp
  | arr xs =>
    exact jsIndexedEntries_clean_aux xs 0
      (fun x hx => (forbFreeList_iff_aux xs).mp (by simpa [forbiddenKeyFree] using h) x hx)
  | str s =>
    refine jsIndexedEntries_clean_aux _ 0 ?_
    intro x hx
    rcases List.mem_map.mp hx with ⟨c, _, hc⟩
    rw [← hc]
    rfl
  | null => intro p hp; simp [jsAssignEntries] at hp
  | bool b => intro p hp; simp [jsAssignEntries] at hp
  | num n => intro p hp; simp [jsAssignEntries] at hp


/-- Entries produced by the union-type branch are clean. -/
theorem typeArrayActions_clean_aux {v : Json} (hv : forbiddenKeyFree v = true) :
    ∀ p ∈ typeArrayActions v, cleanEntry p := by
  intro p hp
  cases v with
  | arr tys =>
    have hels : ∀ x ∈ tys, forbiddenKeyFree x = true :=
      (forbFreeList_iff_aux tys).mp (by simpa [forbiddenKeyFree] using hv)
    simp only [typeArrayActions] at hp
    rcases hfil : tys.filter (fun t => !(jsonBeq t (Json.str "null"))) with _ | ⟨t, rest⟩
    · rw [hfil] at hp
      simp at hp
      rw [hp]
      exact ⟨by decide, rfl⟩
    · rw [hfil] at hp
      have ht : forbiddenKeyFree t = true := by
        have htm : t ∈ tys.filter (fun t => !(jsonBeq t (Json.str "null"))) := by
          rw [hfil]
          exact List.mem_cons_self _ _
        exact hels t (List.mem_of_mem_filter htm)
      rcases rest with _ | ⟨t2, rest2⟩
      · rcases List.mem_append.mp hp with h1 | h1
        · have hpe : p = ("type", t) := by simpa using h1
          rw [hpe]
          exact ⟨show UNSUPPORTED_KEYWORDS.contains "type" = false by decide, ht⟩
        · by_cases hn : tys.any (fun t2 => jsonBeq t2 (Json.str "null")) = true
          · rw [if_pos hn] at h1
            have hpe : p = ("nullable", Json.bool true) := by simpa using h1
            rw [hpe]
            exact ⟨by decide, rfl⟩
          · rw [if_neg hn] at h1
            simp at h1
      · have hpe : p = ("type", if jsTruthy t = true then t else Json.str "string") := by
          simpa using hp
        rw [hpe]
        refine ⟨show UNSUPPORTED_KEYWORDS.contains "type" = false by decide, ?_⟩
        by_cases htr : jsTruthy t = true
        · rw [if_pos htr]
          exact ht
        · rw [if_neg htr]
          rfl
  | null => simp [typeArrayActions] at hp
  | bool b => simp [typeArrayActions] at hp
  | num n => simp [typeArrayActions] at hp
  | str s => simp [typeArrayActions] at hp
  | obj es => simp [typeArrayActions] at hp

/-- Entries produced by the oneOf/anyOf branch are clean. -/
theorem oneOfActions_clean_aux {v : Json} (hv : forbiddenKeyFree v = true) :
    ∀ p ∈ oneOfActions v, cleanEntry p := by
  intro p hp
  cases v with
  | arr localVal =>
    have hels : ∀ x ∈ localVal, forbiddenKeyFree x = true :=
      (forbFreeList_iff_aux localVal).mp (by simpa [forbiddenKeyFree] using hv)
    simp only [oneOfActions] at hp
    by_cases hcond :
        (((localVal.filter
            (fun item => isObjLike item && (jsGet item "const").isSome)).map
              (fun item => (jsGet item "const").getD Json.null)).length
            == localVal.length
          && ((localVal.filter
            (fun item => isObjLike item && (jsGet item "const").isSome)).map
              (fun item => (jsGet item "const").getD Json.null)).length != 0) = true
    · rw [if_pos hcond] at hp
      rcases List.mem_cons.mp hp with hpe | hp2
      · rw [hpe]
        exact ⟨by decide, rfl⟩
      · have hpe : p = ("enum", Json.arr
            (((localVal.filter
                (fun item => isObjLike item && (jsGet item "const").isSome)).map
                  (fun item => (jsGet item "const").getD Json.null)).map
              (fun w => Json.str (jsToString w)))) := by
          simpa using hp2
        rw [hpe]
        exact ⟨show UNSUPPORTED_KEYWORDS.contains "enum" = false by decide,
          strList_forbFree_aux _ _⟩
    · rw [if_neg hcond] at hp
      rcases hft : localVal.find?
          (fun item => isObjLike item && jsTruthy ((jsGet item "type").getD Json.null))
        with _ | item
      · rw [hft] at hp
        have hpe : p = ("type", Json.str "string") := by simpa using hp
        rw [hpe]
        exact ⟨by decide, rfl⟩
      · rw [hft] at hp
        have hitem : item ∈ localVal := List.mem_of_find?_eq_some hft
        have hif : forbiddenKeyFree item = true := hels item hitem
        have hpe : p = ("type",
            if jsTruthy ((jsGet item "type").getD Json.null) = true
            then (jsGet item "type").getD Json.null else Json.str "string") := by
          simpa using hp
        rw [hpe]
        refine ⟨show UNSUPPORTED_KEYWORDS.contains "type" = false by decide, ?_⟩
        rcases hg : jsGet item "type" with _ | tv
        · rfl
        · have htv : forbiddenKeyFree tv = true := forbFree_jsGet_aux hif hg
          by_cases htr : jsTruthy ((some tv).getD Json.null) = true
          · rw [if_pos htr]
            exact htv
          · rw [if_neg htr]
            rfl
  | null => simp [oneOfActions] at hp
  | bool b => simp [oneOfActions] at hp
  | num n => simp [oneOfActions] at hp
  | str s => simp [oneOfActions] at hp
  | obj es => simp [oneOfActions] at hp


/-- The converted properties map of an object value is forbidden-key-free. -/
theorem convertPropsObj_clean_aux (pvs : List (String × Json))
    (h : ∀ q ∈ pvs, UNSUPPORTED_KEYWORDS.contains q.1 = false)
    (hc : ∀ q ∈ pvs, forbiddenKeyFree (convertJsonSchemaObject q.2) = true) :
    forbiddenKeyFreeObj (convertPropsObj pvs) = true := by
  induction pvs with
  | nil => rfl
  | cons hd tl ih =>
    obtain ⟨pk, pv⟩ := hd
    simp only [convertPropsObj, forbiddenKeyFreeObj, Bool.and_eq_true, Bool.not_eq_true']
    exact ⟨⟨h (pk, pv) (List.mem_cons_self _ _), hc (pk, pv) (List.mem_cons_self _ _)⟩,
      ih (fun q hq => h q (List.mem_cons_of_mem _ hq))
        (fun q hq => hc q (List.mem_cons_of_mem _ hq))⟩

/-- The converted properties map of an array value is forbidden-key-free. -/
theorem convertPropsIdx_clean_aux :
    ∀ (xs : List Json) (i : Nat),
      (∀ x ∈ xs, forbiddenKeyFree (convertJsonSchemaObject x) = true) →
      forbiddenKeyFreeObj (convertPropsIdx i xs) = true := by
  intro xs
  induction xs with
  | nil => intro i _; rfl
  | cons hd tl ih =>
    intro i hc
    simp only [convertPropsIdx, forbiddenKeyFreeObj, Bool.and_eq_true, Bool.not_eq_true']
    exact ⟨⟨jsIndexKey_not_forbidden_aux i, hc hd (List.mem_cons_self _ _)⟩,
      ih (i + 1) (fun x hx => hc x (List.mem_cons_of_mem _ hx))⟩

/-- Entries assigned by the allOf branch are clean when the converted
members are forbidden-key-free. -/
theorem convertAssignList_clean_aux (items : List Json)
    (hc : ∀ x ∈ items, forbiddenKeyFree (convertJsonSchemaObject x) = true) :
    ∀ p ∈ convertAssignList items, cleanEntry p := by
  induction items with
  | nil => intro p hp; simp [convertAssignList] at hp
  | cons hd tl ih =>
    intro p hp
    simp only [convertAssignList] at hp
    rcases List.mem_append.mp hp with h1 | h1
    · exact jsAssignEntries_clean_aux (hc hd (List.mem_cons_self _ _)) p h1
    · exact ih (fun x hx => hc x (List.mem_cons_of_mem _ hx)) p h1

/-- Elementwise conversion preserves forbidden-key freeness of a list. -/
theorem convertJsonList_clean_aux (xs : List Json)
    (hc : ∀ x ∈ xs, forbiddenKeyFree (convertJsonSchemaObject x) = true) :
    forbiddenKeyFreeList (convertJsonList xs) = true := by
  induction xs with
  | nil => rfl
  | cons hd tl ih =>
    simp only [convertJsonList, forbiddenKeyFreeList, Bool.and_eq_true]
    exact ⟨hc hd (List.mem_cons_self _ _), ih (fun x hx => hc x (List.mem_cons_of_mem _ hx))⟩

/-- Every entry produced by the conversion loop on clean entries is clean,
assuming the recursive conversion preserves freeness on smaller values. -/
theorem convertActions_clean_aux (hEA hC : Bool) :
    ∀ (kvs : List (String × Json)),
      (∀ t : Json, sizeOf t < sizeOf kvs → forbiddenKeyFree t = true →
          forbiddenKeyFree (convertJsonSchemaObject t) = true) →
      (∀ p ∈ kvs, cleanEntry p) →
      ∀ p ∈ convertActions hEA hC kvs, cleanEntry p := by
  intro kvs
  induction kvs with
  | nil => intro _ _ p hp; simp [convertActions] at hp
  | cons hd tl ih =>
    intro ihc hQ p hp
    obtain ⟨k, v⟩ := hd
    have hszv : sizeOf v < sizeOf ((k, v) :: tl) := by
      simp only [List.cons.sizeOf_spec, Prod.mk.sizeOf_spec]
      omega
    have hsztl : sizeOf tl < sizeOf ((k, v) :: tl) := by
      simp only [List.cons.sizeOf_spec, Prod.mk.sizeOf_spec]
      omega
    have hk : UNSUPPORTED_KEYWORDS.contains k = false := (hQ (k, v) (List.mem_cons_self _ _)).1
    have hv : forbiddenKeyFree v = true := (hQ (k, v) (List.mem_cons_self _ _)).2
    simp only [convertActions] at hp
    rcases List.mem_append.mp hp with hp1 | hp2
    · rw [if_neg (show ¬ (UNSUPPORTED_KEYWORDS.contains k = true) by rw [hk]; simp)] at hp1
      by_cases hskip : ((k == "type" || k == "enum") && (hEA || hC)) = true
      · rw [if_pos hskip] at hp1
        exact absurd hp1 (List.not_mem_nil p)
      · rw [if_neg hskip] at hp1
        by_cases hconst : (k == "const") = true
        · rw [if_pos hconst] at hp1
          exact absurd hp1 (List.not_mem_nil p)
        · rw [if_neg hconst] at hp1
          by_cases hty : ((k == "type") && isArrJson v) = true
          · rw [if_pos hty] at hp1
            exact typeArrayActions_clean_aux hv p hp1
          · rw [if_neg hty] at hp1
            by_cases hpr : ((k == "properties") && isObjLike v) = true
            · rw [if_pos hpr] at hp1
              have hpe : p = ("properties", convertPropsVal v) := by simpa using hp1
              rw [hpe]
              refine ⟨show UNSUPPORTED_KEYWORDS.contains "properties" = false by decide, ?_⟩
              cases v with
              | obj pvs =>
                have hobj : ∀ q ∈ pvs, cleanEntry q :=
                  (forbFreeObj_iff_aux pvs).mp (by simpa [forbiddenKeyFree] using hv)
                have hco : forbiddenKeyFreeObj (convertPropsObj pvs) = true :=
                  convertPropsObj_clean_aux pvs (fun q hq => (hobj q hq).1)
                    (fun q hq => ihc q.2 (lt_trans (sizeOf_snd_lt_obj_aux hq) hszv)
                      (hobj q hq).2)
                simpa [convertPropsVal, forbiddenKeyFree] using hco
              | arr xs =>
                have hl : ∀ x ∈ xs, forbiddenKeyFree x = true :=
                  (forbFreeList_iff_aux xs).mp (by simpa [forbiddenKeyFree] using hv)
                have hco : forbiddenKeyFreeObj (convertPropsIdx 0 xs) = true :=
                  convertPropsIdx_clean_aux xs 0
                    (fun x hx => ihc x (lt_trans (sizeOf_elem_lt_arr_aux hx) hszv) (hl x hx))
                simpa [convertPropsVal, forbiddenKeyFree] using hco
              | null => rfl
              | bool b => rfl
              | num n => rfl
              | str s => rfl
            · rw [if_neg hpr] at hp1
              by_cases hit : ((k == "items") && isObjLike v) = true
              · rw [if_pos hit] at hp1
                have hpe : p = ("items", convertJsonSchemaObject v) := by simpa using hp1
                rw [hpe]
                exact ⟨show UNSUPPORTED_KEYWORDS.contains "items" = false by decide,
                  ihc v hszv hv⟩
              · rw [if_neg hit] at hp1
                by_cases hall : ((k == "allOf") && isArrJson v) = true
                · rw [if_pos hall] at hp1
                  cases v with
                  | arr items =>
                    have hl : ∀ x ∈ items, forbiddenKeyFree x = true :=
                      (forbFreeList_iff_aux items).mp (by simpa [forbiddenKeyFree] using hv)
                    exact convertAssignList_clean_aux items
                      (fun x hx => ihc x (lt_trans (sizeOf_elem_lt_arr_aux hx) hszv)
                        (hl x hx)) p hp1
                  | null => simp [convertAssignVal] at hp1
                  | bool b => simp [convertAssignVal] at hp1
                  | num n => simp [convertAssignVal] at hp1
                  | str s => simp [convertAssignVal] at hp1
                  | obj es => simp [convertAssignVal] at hp1
                · rw [if_neg hall] at hp1
                  by_cases hoo : ((k == "oneOf" || k == "anyOf") && isArrJson v) = true
                  · rw [if_pos hoo] at hp1
                    exact oneOfActions_clean_aux hv p hp1
                  · rw [if_neg hoo] at hp1
                    have hpe : p = (k, convertJsonSchemaObject v) := by simpa using hp1
                    rw [hpe]
                    exact ⟨hk, ihc v hszv hv⟩
    · exact ih (fun t ht h2 => ihc t (lt_trans ht hsztl) h2)
        (fun q hq => hQ q (List.mem_cons_of_mem _ hq)) p hp2


/-- One pass of the normalizer preserves forbidden-key freeness. -/
theorem forbFree_convert_aux :
    ∀ (n : Nat) (s : Json), sizeOf s ≤ n → forbiddenKeyFree s = true →
      forbiddenKeyFree (convertJsonSchemaObject s) = true := by
  intro n
  induction n with
  | zero =>
    intro s hsize _
    exfalso
    cases s <;> simp at hsize
  | succ n ih =>
    intro s hsize hs
    cases s with
    | null => exact hs
    | bool b => exact hs
    | num m => exact hs
    | str t => exact hs
    | arr xs =>
      have hl : ∀ x ∈ xs, forbiddenKeyFree x = true :=
        (forbFreeList_iff_aux xs).mp (by simpa [forbiddenKeyFree] using hs)
      have hcl : forbiddenKeyFreeList (convertJsonList xs) = true :=
        convertJsonList_clean_aux xs (fun x hx =>
          ih x (by have h1 := sizeOf_elem_lt_arr_aux hx; omega) (hl x hx))
      simpa [convertJsonSchemaObject, forbiddenKeyFree] using hcl
    | obj kvs =>
      have hobj : ∀ p ∈ kvs, cleanEntry p :=
        (forbFreeObj_iff_aux kvs).mp (by simpa [forbiddenKeyFree] using hs)
      have hszo : sizeOf (Json.obj kvs) = 1 + sizeOf kvs := by simp
      have hrw : ∀ es, forbiddenKeyFree (Json.obj es) = forbiddenKeyFreeObj es :=
        fun _ => rfl
      simp only [convertJsonSchemaObject]
      rw [hrw]
      refine (forbFreeObj_iff_aux _).mpr ?_
      refine foldl_jsInsert_pred_aux cleanEntry _ [] (by simp) ?_
      intro p hp
      rcases List.mem_append.mp hp with hp12 | hp3
      · rcases List.mem_append.mp hp12 with hp1 | hp2
        · rcases he : jsLookup kvs "enum" with _ | ev
          · rw [he] at hp1
            simp at hp1
          · rw [he] at hp1
            cases ev <;> simp at hp1
            rcases hp1 with hp1 | hp1 <;> rw [hp1]
            · exact ⟨by decide, rfl⟩
            · exact ⟨show UNSUPPORTED_KEYWORDS.contains "enum" = false by decide,
                strList_forbFree_aux _ _⟩
        · rcases hc2 : jsLookup kvs "const" with _ | cv
          · rw [hc2] at hp2
            simp at hp2
          · rw [hc2] at hp2
            simp at hp2
            rcases hp2 with hp2 | hp2 <;> rw [hp2]
            · exact ⟨show UNSUPPORTED_KEYWORDS.contains "type" = false by decide, rfl⟩
            · exact ⟨show UNSUPPORTED_KEYWORDS.contains "enum" = false by decide, rfl⟩
      · refine convertActions_clean_aux _ _ kvs ?_ hobj p hp3
        intro t ht h2
        refine ih t ?_ h2
        rw [hszo] at hsize
        omega

/-- C3 counterexample: the normalizer is not idempotent.  On
`{const: 5}` one pass yields `{type: "number", enum: ["5"]}` (type
inferred from the const's primitive kind), but a second pass sees the
`enum` array and forces `type: "string"` — the two passes differ in the
value at the `type` key, not merely in key order. -/
theorem schema_idempotence_cex :
    (mapJsonSchemaToGemini 100 (.obj [("const", .num 5)])).bind
        (mapJsonSchemaToGemini 100)
      ≠ mapJsonSchemaToGemini 100 (.obj [("const", .num 5)])
    ∧ mapJsonSchemaToGemini 100 (.obj [("const", .num 5)])
      = some (.obj [("type", .str "number"), ("enum", .arr [.str "5"])])
    ∧ (mapJsonSchemaToGemini 100 (.obj [("const", .num 5)])).bind
        (mapJsonSchemaToGemini 100)
      = some (.obj [("type", .str "string"), ("enum", .arr [.str "5"])]) := by
  refine ⟨?_, rfl, rfl⟩
  show some (Json.obj [("type", .str "string"), ("enum", .arr [.str "5"])])
      ≠ some (Json.obj [("type", .str "number"), ("enum", .arr [.str "5"])])
  simp

/-- C3 amended: on schemas already in the Gemini-accepted stable fragment
(objects with distinct keys that avoid the rewritten keywords — the
dropped list, `const`, `allOf`, `oneOf`, `anyOf`, `enum` — and carry no
array-valued `type` or `properties`), one pass of the normalizer is the
identity, and hence applying it twice equals applying it once.  Full
idempotence fails on inputs outside this fragment (see the
counterexample). -/
theorem schema_normalizer_stable_idempotent (fuel : Nat) (s : Json)
    (hs : geminiStableForm s = true) :
    mapJsonSchemaToGemini fuel s = some s
    ∧ (mapJsonSchemaToGemini fuel s).bind (mapJsonSchemaToGemini fuel)
      = mapJsonSchemaToGemini fuel s := by
  have hconv : convertJsonSchemaObject s = s :=
    stable_convert_id_aux (sizeOf s) s le_rfl hs
  have hmap : mapJsonSchemaToGemini fuel s = some s := by
    cases s with
    | obj kvs =>
      have hsplit : nodupKeysB kvs = true ∧ geminiStableFormObj kvs = true := by
        simpa [geminiStableForm, Bool.and_eq_true] using hs
      have hdefs : jsLookup kvs "definitions" = none :=
        stable_lookup_none_aux hsplit.2 "definitions" (by decide)
      simp [mapJsonSchemaToGemini, hdefs, hconv]
    | null => simpa [mapJsonSchemaToGemini] using hconv
    | bool b => simpa [mapJsonSchemaToGemini] using hconv
    | num m => simpa [mapJsonSchemaToGemini] using hconv
    | str t => simpa [mapJsonSchemaToGemini] using hconv
    | arr xs => simpa [mapJsonSchemaToGemini] using hconv
  refine ⟨hmap, ?_⟩
  rw [hmap]
  simpa using hmap

theorem schema_normalizer_stable_idempotent_witness :
    mapJsonSchemaToGemini 100
        (.obj [("type", .str "object"),
               ("properties", .obj [("x", .obj [("type", .str "string")])])])
      = some (.obj [("type", .str "object"),
               ("properties", .obj [("x", .obj [("type", .str "string")])])]) :=
  (schema_normalizer_stable_idempotent 100
    (.obj [("type", .str "object"),
           ("properties", .obj [("x", .obj [("type", .str "string")])])])
    (by rfl)).1


/-- C6 counterexample: the normalizer can emit a forbidden keyword as an
object key.  The loop over `properties` copies every property NAME
verbatim, so the property named `default` in
`{properties: {default: {}}}` survives one pass unchanged, and the output
contains the forbidden key `default` at nesting depth 2. -/
theorem forbidden_property_name_cex :
    mapJsonSchemaToGemini 100
        (Json.obj [("properties", Json.obj [("default", Json.obj [])])])
      = some (Json.obj [("properties", Json.obj [("default", Json.obj [])])])
    ∧ forbiddenKeyFree
        (Json.obj [("properties", Json.obj [("default", Json.obj [])])]) = false :=
  ⟨rfl, rfl⟩

/-- C6 amended: on inputs that are themselves forbidden-key-free (so no
dropped keyword occurs anywhere, in particular not as a property name
under `properties` or behind an `allOf` member), the normalizer's output
is forbidden-key-free at every nesting depth.  On arbitrary inputs the
claim fails because property names are copied verbatim (see the
counterexample). -/
theorem normalizer_forbidden_free (fuel : Nat) (s out : Json)
    (hs : forbiddenKeyFree s = true)
    (hmap : mapJsonSchemaToGemini fuel s = some out) :
    forbiddenKeyFree out = true := by
  have hconv : forbiddenKeyFree (convertJsonSchemaObject s) = true :=
    forbFree_convert_aux (sizeOf s) s le_rfl hs
  cases s with
  | obj kvs =>
    have hobj : forbiddenKeyFreeObj kvs = true := by
      simpa [forbiddenKeyFree] using hs
    have hdefs : jsLookup kvs "definitions" = none :=
      forbFree_lookup_none_aux hobj (by decide)
    simp only [mapJsonSchemaToGemini, hdefs] at hmap
    obtain rfl : convertJsonSchemaObject (Json.obj kvs) = out := by simpa using hmap
    exact hconv
  | null =>
    simp only [mapJsonSchemaToGemini] at hmap
    obtain rfl : convertJsonSchemaObject Json.null = out := by simpa using hmap
    exact hconv
  | bool b =>
    simp only [mapJsonSchemaToGemini] at hmap
    obtain rfl : convertJsonSchemaObject (Json.bool b) = out := by simpa using hmap
    exact hconv
  | num n =>
    simp only [mapJsonSchemaToGemini] at hmap
    obtain rfl : convertJsonSchemaObject (Json.num n) = out := by simpa using hmap
    exact hconv
  | str t =>
    simp only [mapJsonSchemaToGemini] at hmap
    obtain rfl : convertJsonSchemaObject (Json.str t) = out := by simpa using hmap
    exact hconv
  | arr xs =>
    simp only [mapJsonSchemaToGemini] at hmap
    obtain rfl : convertJsonSchemaObject (Json.arr xs) = out := by simpa using hmap
    exact hconv

theorem normalizer_forbidden_free_witness :
    forbiddenKeyFree (Json.obj [("const", Json.num 5)]) = true
    ∧ forbiddenKeyFree (Json.obj [("type", Json.str "number"),
        ("enum", Json.arr [Json.str "5"])]) = true :=
  ⟨rfl, normalizer_forbidden_free 100 (Json.obj [("const", Json.num 5)])
    (Json.obj [("type", Json.str "number"), ("enum", Json.arr [Json.str "5"])])
    rfl rfl⟩

end GeminiProxy
